import Mathlib

set_option maxHeartbeats 1000000

set_option maxRecDepth 8000

set_option exponentiation.threshold 2000

/-
Verification development for the retro-pricer repository (src/scraper.py).

Modelling conventions:
* Python strings are modelled as Lean `String`/`List Char`; the model covers the
  ASCII behaviour of `str.lower`, `str.strip`, `str.split`, `str.title` (the data
  the scraper manipulates is ASCII once it has passed through
  `unicodedata.normalize("NFKD", ...).encode("ascii", "ignore")`).
* `unicodedata.normalize("NFKD", ...)` is modelled character-wise by an arbitrary
  decomposition function `decomp : Char → List Char`; NFKD does not decompose
  ASCII characters, which is the only property the theorems assume about it.
* Python `float` is modelled exactly: a decimal literal is parsed to an exact
  rational and rounded to the nearest IEEE-754 binary64 value (round half to
  even), `float * int` rounds the exact product the same way.  `inf`/`nan`
  literals are recognised; the `OverflowError` that `int(inf)` raises in CPython
  is outside the model (no theorem touches an infinite value).
* Python `dict` is modelled as an association list in insertion order;
  `dict[k] = v` keeps the position of an existing key (last write wins on the
  value), which is CPython's behaviour.
* Exceptions of collaborator calls (requests, file I/O, json) are modelled by
  `Except` parameters supplied by the environment.
-/

/-- Python `str.isspace` on the ASCII whitespace characters
(space, tab, newline, carriage return, vertical tab, form feed;
model scope: ASCII). -/
def pyIsSpace (c : Char) : Bool :=
  c.toNat = 32 || c.toNat = 9 || c.toNat = 10 || c.toNat = 13 ||
  c.toNat = 11 || c.toNat = 12

/-- Python `str.lower` on an ASCII character (codes 65-90 are `A`-`Z`). -/
def pyLower (c : Char) : Char :=
  if 65 ≤ c.toNat ∧ c.toNat ≤ 90 then Char.ofNat (c.toNat + 32) else c

/-- Python `str.strip()` : drop leading and trailing whitespace. -/
def pyStrip (cs : List Char) : List Char :=
  ((cs.dropWhile pyIsSpace).reverse.dropWhile pyIsSpace).reverse

/-- Python `str.strip()` on a `String`. -/
def pyStripS (s : String) : String := ⟨pyStrip s.data⟩

/-- Emit the accumulated (reversed) token in front of `ts`, if it is non-empty. -/
def flushAcc (acc : List Char) (ts : List (List Char)) : List (List Char) :=
  if acc = [] then ts else acc.reverse :: ts

/-- Worker for `splitWs`; `acc` holds the current token reversed. -/
def splitWsAux : List Char → List Char → List (List Char)
  | [], acc => flushAcc acc []
  | c :: rest, acc =>
    if pyIsSpace c then flushAcc acc (splitWsAux rest [])
    else splitWsAux rest (c :: acc)

/-- Python `str.split()` with no argument: split on whitespace runs, dropping
empty pieces. -/
def splitWs (cs : List Char) : List (List Char) := splitWsAux cs []

/-- Join pieces with a separator (`sep.join(...)` in Python). -/
def joinWith (sep : List Char) : List (List Char) → List Char
  | [] => []
  | [g] => g
  | g :: g' :: gs => g ++ sep ++ joinWith sep (g' :: gs)

/-- The filler/platform words removed by `_normalise`
(`src/scraper.py` line 249), exactly the alternatives of the regex. -/
def stopwords : List (List Char) :=
  ["the", "a", "an", "for", "in", "of", "and", "with", "w", "wii", "nes", "n64",
   "snes", "gba", "gbc", "nds", "psp", "ps1", "ps2", "ps3", "xbox", "gamecube",
   "genesis", "saturn", "dreamcast"].map String.data

/-- Replacement step of `re.sub(r"[^a-z0-9 ]", " ", ...)`: any character outside
`[a-z0-9 ]` becomes a space (codes 97-122 are `a`-`z`, 48-57 are `0`-`9`,
32 is the space). -/
def keepCh (c : Char) : Char :=
  if (97 ≤ c.toNat ∧ c.toNat ≤ 122) ∨ (48 ≤ c.toNat ∧ c.toNat ≤ 57) ∨
      c.toNat = 32 then c else ' '

/-- Token list produced by `_normalise` (`src/scraper.py` lines 244-250).
The final two regex passes of the source — whole-word stop-word removal
(each match is replaced by a space, so tokens never merge) followed by
whitespace collapsing and stripping — are together equivalent to splitting
into whitespace-separated tokens, dropping stop-word tokens, and re-joining
with single spaces, which is how they are rendered here. -/
def normTokens (decomp : Char → List Char) (cs : List Char) : List (List Char) :=
  (splitWs (((cs.flatMap decomp).filter (fun c => c.toNat < 128)).map pyLower
      |>.map keepCh)).filter (fun t => !(stopwords.contains t))

/-- Embedding of `_normalise` (`src/scraper.py` lines 244-250): NFKD-fold to
ASCII (via `decomp`, dropping non-ASCII), lowercase, replace every character
outside `[a-z0-9 ]` by a space, drop stop-word tokens, collapse whitespace and
strip. -/
def _normalise (decomp : Char → List Char) (s : String) : String :=
  ⟨joinWith [' '] (normTokens decomp s.data)⟩

/-- A character of a `_normalise` token: lowercase letter or digit. -/
def tokChar (c : Char) : Prop :=
  (97 ≤ c.toNat ∧ c.toNat ≤ 122) ∨ (48 ≤ c.toNat ∧ c.toNat ≤ 57)

/-- Identity character decomposition: the concrete model of NFKD for witnesses
(NFKD is the identity on every character these inputs contain). -/
def decompId : Char → List Char := fun c => [c]

/-- A DK Oldies buy-list entry: display name and buy price in cents. -/
structure BLEntry where
  name : String
  cents : ℤ
  deriving DecidableEq

/-- The record returned by a successful buy-price match
(`{"name": ..., "buy_cents": ...}`). -/
structure BuyMatch where
  name : String
  buy_cents : ℤ
  deriving DecidableEq

/-- Token set of a buy-list key or of the normalized needle:
`set(key.split())` in the source. -/
def keyTokens (s : String) : Finset (List Char) := (splitWs s.data).toFinset

/-- Matching score of one key (`src/scraper.py` lines 275-277): size of the
token-set overlap divided by the size of the larger token set. -/
def scoreKey (nw : Finset (List Char)) (k : String) : ℚ :=
  ((nw ∩ keyTokens k).card : ℚ) / ((max nw.card (keyTokens k).card : ℕ) : ℚ)

/-- The best-match fold of `get_dkoldies_buy_price` (lines 270-279): keys with
an empty token set are skipped; a key replaces the current best only when its
score is strictly greater (`score > best_score`), so on an exact tie the
earlier key wins. -/
def bestLoop (nw : Finset (List Char)) :
    List String → Option String × ℚ → Option String × ℚ
  | [], acc => acc
  | k :: rest, acc =>
    if keyTokens k = ∅ then bestLoop nw rest acc
    else if acc.2 < scoreKey nw k then bestLoop nw rest (some k, scoreKey nw k)
    else bestLoop nw rest acc

/-- Matching part of `get_dkoldies_buy_price` (`src/scraper.py` lines 261-285),
taking the buy-list mapping (an association list in dict iteration order) as a
parameter.  The final dict lookup `buylist[best_key]` is rendered as `find?`;
with distinct keys it returns the unique entry (a missing key cannot occur, the
`none` arm is dead code). -/
def match_buy_price (decomp : Char → List Char)
    (buylist : List (String × BLEntry)) (game_name : String) : Option BuyMatch :=
  if buylist = [] then none
  else
    let needle := _normalise decomp game_name
    let nw := keyTokens needle
    if nw = ∅ then none
    else
      let r := bestLoop nw (buylist.map Prod.fst) (none, 0)
      if 1/2 ≤ r.2 then
        match r.1 with
        | some k =>
          if k = "" then none
          else
            match buylist.find? (fun p => p.1 == k) with
            | some p => some ⟨p.2.name, p.2.cents⟩
            | none => none
        | none => none
      else none

/-- Maximum of a list of rationals with neutral element 0 (spec side). -/
def listMaxQ : List ℚ → ℚ
  | [] => 0
  | q :: rest => max q (listMaxQ rest)

/-- The keys the matcher actually scores: those with a non-empty token set. -/
def candKeys (keys : List String) : List String :=
  keys.filter (fun k => keyTokens k ≠ ∅)

/-- Spec-side best score: the maximum score over all non-empty keys
(0 when there are none). -/
def bestScoreSpec (nw : Finset (List Char)) (keys : List String) : ℚ :=
  listMaxQ ((candKeys keys).map (scoreKey nw))

/-- The first key of the list whose token set is non-empty and whose score is
exactly `b`. -/
def firstHit (nw : Finset (List Char)) (keys : List String) (b : ℚ) :
    Option String :=
  keys.find? (fun k => decide (keyTokens k ≠ ∅) && decide (scoreKey nw k = b))

/-- A concrete one-entry buy-list used by the c1 witness. -/
def wBuylist : List (String × BLEntry) :=
  [("super mario bros 3", ⟨"Super Mario Bros 3", 4500⟩)]

/-- Round half to even on an exact rational: Python's builtin `round`
to 0 digits. -/
def rhe (q : ℚ) : ℤ :=
  let f := ⌊q⌋
  let r := q - (f : ℚ)
  if r < 1/2 then f
  else if r = 1/2 then (if f % 2 = 0 then f else f + 1)
  else f + 1

/-- BuyListCache state (`_dko_buylist_cache`, `src/scraper.py` line 201):
the current mapping and the time of the last acquisition. -/
structure BuylistCache where
  data : List (String × BLEntry)
  fetched_at : ℚ
  deriving DecidableEq

/-- The cache TTL (`_DKO_BUYLIST_TTL`, line 202): one hour in seconds. -/
def _DKO_BUYLIST_TTL : ℚ := 3600

/-- Refresh step of `get_dkoldies_buy_price` (lines 255-259) — the spec's
`get_buylist` contract.  `now` is the current time and `acquired` is the
mapping that `_fetch_dkoldies_buylist()` would return if it were called.
Returns the mapping used for matching and the updated cache; in the
non-refresh branch the result does not depend on `acquired`, which renders
"no acquisition is attempted". -/
def get_buylist (cache : BuylistCache) (now : ℚ)
    (acquired : List (String × BLEntry)) :
    List (String × BLEntry) × BuylistCache :=
  if _DKO_BUYLIST_TTL < now - cache.fetched_at ∨ cache.data = [] then
    (acquired, ⟨acquired, now⟩)
  else (cache.data, cache)

/-- ASCII digit test (codes 48-57). -/
def isDigitCh (c : Char) : Bool := 48 ≤ c.toNat ∧ c.toNat ≤ 57

/-- Numeric value of an ASCII digit. -/
def digitVal (c : Char) : ℕ := c.toNat - 48

/-- Scan a digit run, allowing single underscores between digits (Python's
numeric literal grammar).  Returns the accumulated value (starting from `v`),
the number of digits consumed (starting from `n`), and the rest of the input.
A leading underscore, a double underscore or a trailing underscore stops the
scan with the offending characters left in the rest (so the caller fails on
the leftover, as `float()` does). -/
def digitsLoop : List Char → ℕ → ℕ → ℕ × ℕ × List Char
  | [], v, n => (v, n, [])
  | [c], v, n =>
    if isDigitCh c then (10 * v + digitVal c, n + 1, []) else (v, n, [c])
  | c :: d :: rest, v, n =>
    if isDigitCh c then digitsLoop (d :: rest) (10 * v + digitVal c) (n + 1)
    else if c = '_' ∧ isDigitCh d ∧ n ≠ 0 then
      digitsLoop rest (10 * v + digitVal d) (n + 1)
    else (v, n, c :: d :: rest)

/-- Exact value of a Python float literal. -/
inductive FLit where
  | num (q : ℚ)
  | infLit
  | nanLit
  deriving DecidableEq

/-- Case-insensitive equality with an all-lowercase word. -/
def ciEqWord : List Char → List Char → Bool
  | [], [] => true
  | c :: cs, w :: ws => pyLower c = w && ciEqWord cs ws
  | _, _ => false

/-- Optional sign; returns whether the value is negated and the rest. -/
def parseSign : List Char → Bool × List Char
  | '+' :: t => (false, t)
  | '-' :: t => (true, t)
  | t => (false, t)

/-- Optional exponent part and end-of-input check of a float literal;
`v` is the unsigned mantissa value. -/
def finishFloat (neg : Bool) (v : ℚ) : List Char → Option FLit
  | [] => some (.num (if neg then -v else v))
  | e :: rest =>
    if e = 'e' ∨ e = 'E' then
      match parseSign rest with
      | (eneg, rest1) =>
        match digitsLoop rest1 0 0 with
        | (ev, ne, rest2) =>
          if ne = 0 ∨ rest2 ≠ [] then none
          else
            let m : ℚ := if eneg then v / ((10 ^ ev : ℕ) : ℚ)
              else v * ((10 ^ ev : ℕ) : ℚ)
            some (.num (if neg then -m else m))
    else none

/-- Python `float()` on a string, to its exact value: optional whitespace and
sign, then `inf`/`infinity`/`nan` (case-insensitive) or a decimal literal
`digits [. digits] [(e|E) [sign] digits]` with optional single underscores
between digits.  Model scope: ASCII digits (`float()` also accepts Unicode
decimal digits, which this repository never feeds it). -/
def parseFloatLit (cs0 : List Char) : Option FLit :=
  let s := pyStrip cs0
  match parseSign s with
  | (neg, cs1) =>
    if ciEqWord cs1 "inf".data || ciEqWord cs1 "infinity".data then
      some .infLit
    else if ciEqWord cs1 "nan".data then some .nanLit
    else
      match digitsLoop cs1 0 0 with
      | (iv, ni, rest1) =>
        match rest1 with
        | '.' :: rest2 =>
          match digitsLoop rest2 0 0 with
          | (fv, nf, rest3) =>
            if ni = 0 ∧ nf = 0 then none
            else finishFloat neg ((iv : ℚ) + (fv : ℚ) / ((10 ^ nf : ℕ) : ℚ)) rest3
        | _ => if ni = 0 then none else finishFloat neg (iv : ℚ) rest1

/-- Fuel-based ⌊log₂⌋ on ℕ (the obvious definition is well-founded recursion,
which the kernel cannot evaluate; `n` itself is always enough fuel). -/
def natLog2F : ℕ → ℕ → ℕ
  | 0, _ => 0
  | fuel + 1, n => if 2 ≤ n then natLog2F fuel (n / 2) + 1 else 0

/-- ⌊log₂ n⌋ for n ≥ 1 (0 for n = 0). -/
def log2N (n : ℕ) : ℕ := natLog2F n n

/-- 2^e as a rational, written so that the kernel can evaluate it
(`Monoid.npow` on ℚ is a unary recursion). -/
def zpow2 (e : ℤ) : ℚ :=
  if 0 ≤ e then ((2 ^ e.toNat : ℕ) : ℚ) else ((2 ^ (-e).toNat : ℕ) : ℚ)⁻¹

/-- ⌊log₂ q⌋ for a positive rational. -/
def floorLog2Q (q : ℚ) : ℤ :=
  let e : ℤ := (log2N q.num.natAbs : ℤ) - (log2N q.den : ℤ)
  if zpow2 e ≤ q then e else e - 1

/-- An IEEE-754 binary64 value: finite (with its exact rational value),
infinite, or NaN. -/
inductive F64 where
  | fin (q : ℚ)
  | infF
  | nanF
  deriving DecidableEq

/-- Round an exact rational to the binary64 grid (round to nearest, ties to
even): normal numbers use the 53-bit grid of their own binade, subnormals the
fixed grid 2^(-1074). -/
def roundF64 (q : ℚ) : ℚ :=
  if q = 0 then 0
  else
    let e := max (floorLog2Q |q| - 52) (-1074)
    (rhe (q / zpow2 e) : ℚ) * zpow2 e

/-- An exact rational as a binary64 value (overflow to infinity at 2^1024,
which is where round-to-nearest overflows). -/
def float64 (q : ℚ) : F64 :=
  let r := roundF64 q
  if ((2 ^ 1024 : ℕ) : ℚ) ≤ |r| then .infF else .fin r

/-- Python `float()` on a string: parse the literal exactly, then round to
binary64. -/
def pyFloat (cs : List Char) : Option F64 :=
  (parseFloatLit cs).map (fun l =>
    match l with
    | .num q => float64 q
    | .infLit => .infF
    | .nanLit => .nanF)

/-- `text.replace("$", "").replace(",", "")`. -/
def stripDollarComma (cs : List Char) : List Char :=
  cs.filter (fun c => c ≠ '$' ∧ c ≠ ',')

/-- Python `int()` on a number: truncation toward zero. -/
def pyTrunc (q : ℚ) : ℤ := if 0 ≤ q then ⌊q⌋ else -⌊-q⌋

/-- Embedding of `_parse_price` (`src/scraper.py` lines 312-318): falsy text
is absent; otherwise strip, drop `$` and `,`, parse as a float and truncate
100 times the value to an integer, with `ValueError` giving absent.
Model notes: a NaN parse gives absent because `int(nan)` raises `ValueError`,
which the source catches; a parse yielding an infinity (`"inf"`, or a finite
literal beyond the binary64 range) makes CPython's `int()` raise an uncaught
`OverflowError` — that raising path is outside the model (rendered `none`
here; no theorem in this file touches such an input). -/
def _parse_price (text : String) : Option ℤ :=
  if text = "" then none
  else
    match pyFloat (stripDollarComma (pyStrip text.data)) with
    | some (.fin d) =>
      match float64 (d * 100) with
      | .fin p => some (pyTrunc p)
      | _ => none
    | _ => none

/-- Decimal value accumulated by `digitsLoop` over a digit list. -/
def dval (ds : List Char) (v : ℕ) : ℕ :=
  ds.foldl (fun a c => 10 * a + digitVal c) v

/-- The character list of a `$X,XXX.YY` price string: a dollar sign, digit
groups joined with commas, a dot and two cents digits. -/
def dollarChars (gs : List (List Char)) (y1 y2 : Char) : List Char :=
  '$' :: (joinWith [','] gs ++ '.' :: [y1, y2])

/-- The exact cents amount written by a `$X,XXX.YY` price string. -/
def dollarCents (gs : List (List Char)) (y1 y2 : Char) : ℕ :=
  100 * dval gs.flatten 0 + dval [y1, y2] 0

/-- Python `str.upper` on an ASCII character (codes 97-122 are `a`-`z`). -/
def pyUpper (c : Char) : Char :=
  if 97 ≤ c.toNat ∧ c.toNat ≤ 122 then Char.ofNat (c.toNat - 32) else c

/-- Is the character cased (an ASCII letter)? -/
def isCased (c : Char) : Bool :=
  (65 ≤ c.toNat ∧ c.toNat ≤ 90) ∨ (97 ≤ c.toNat ∧ c.toNat ≤ 122)

/-- Worker for `pyTitle`; the flag says whether the previous character was
cased. -/
def pyTitleGo : Bool → List Char → List Char
  | _, [] => []
  | prev, c :: cs =>
    (if isCased c then (if prev then pyLower c else pyUpper c) else c) ::
      pyTitleGo (isCased c) cs

/-- Python `str.title` (ASCII model): the first letter of every run of
letters is uppercased, the rest lowercased. -/
def pyTitle (cs : List Char) : List Char := pyTitleGo false cs

/-- `str.replace("-", " ")`. -/
def replaceDash (cs : List Char) : List Char :=
  cs.map (fun c => if c = '-' then ' ' else c)

/-- `game_slug.replace("-", " ").title()`. -/
def humanizeSlug (slug : String) : String := ⟨pyTitle (replaceDash slug.data)⟩

/-- The canonical PriceCharting game-page URL. -/
def pcUrl (pc_console game_slug : String) : String :=
  "https://www.pricecharting.com/game/" ++ pc_console ++ "/" ++ game_slug

/-- A well-formed `VGPC.chart_data` block: for each of the six condition
keys, the key's time-series array (list of (time, cents) pairs) when the key
is present. -/
structure ChartSeries where
  used : Option (List (ℤ × ℤ))
  cib : Option (List (ℤ × ℤ))
  new : Option (List (ℤ × ℤ))
  graded : Option (List (ℤ × ℤ))
  boxonly : Option (List (ℤ × ℤ))
  manualonly : Option (List (ℤ × ℤ))
  deriving DecidableEq

/-- One condition's contribution to the primary prices dict
(`src/scraper.py` lines 126-127): present and non-empty gives the second
component of the last entry. -/
def pick (label : String) : Option (List (ℤ × ℤ)) → List (String × ℤ)
  | none => []
  | some xs =>
    match xs.getLast? with
    | none => []
    | some p => [(label, p.2)]

/-- The primary prices dict from the chart block, in the source's fixed key
order (`src/scraper.py` lines 123-127). -/
def chartPrices (c : ChartSeries) : List (String × ℤ) :=
  pick "loose" c.used ++ pick "cib" c.cib ++ pick "new" c.new ++
    pick "graded" c.graded ++ pick "box_only" c.boxonly ++
    pick "manual_only" c.manualonly

/-- An HTML price element of the fallback tier: the `data-price` attribute
when present, and the element text. -/
structure PriceEl where
  data_price : Option String
  text : String
  deriving DecidableEq

/-- `el.get("data-price") or el.text.strip().replace("$", "")`
(`src/scraper.py` line 138): the attribute when present and truthy, else the
stripped text with dollar signs removed. -/
def elRaw (el : PriceEl) : List Char :=
  match el.data_price with
  | some a => if a = "" then (pyStrip el.text.data).filter (fun c => c ≠ '$') else a.data
  | none => (pyStrip el.text.data).filter (fun c => c ≠ '$')

/-- `int(float(raw) * 100)` on a fallback element, with `ValueError` giving
absent (`src/scraper.py` line 139); as with `_parse_price`, the uncaught
`OverflowError` of an infinite value is outside the model. -/
def elPrice (el : PriceEl) : Option ℤ :=
  match pyFloat (elRaw el) with
  | some (.fin d) =>
    match float64 (d * 100) with
    | .fin p => some (pyTrunc p)
    | _ => none
  | _ => none

/-- One fallback element's contribution to the prices dict. -/
def fallbackPick (label : String) : Option PriceEl → List (String × ℤ)
  | none => []
  | some el =>
    match elPrice el with
    | some p => [(label, p)]
    | none => []

/-- The fallback prices dict from the three HTML price elements
(`src/scraper.py` lines 132-141). -/
def fallbackPrices (u c n : Option PriceEl) : List (String × ℤ) :=
  fallbackPick "loose" u ++ fallbackPick "cib" c ++ fallbackPick "new" n

/-- First truthy entry of a list of char lists (Python
`next((t for t in ... if t), default="")`). -/
def firstTruthy : List (List Char) → List Char
  | [] => []
  | t :: ts => if t = [] then firstTruthy ts else t

/-- Drop a trailing `" Prices"` (`src/scraper.py` lines 152-153). -/
def stripPricesSuffix (t : List Char) : List Char :=
  if t.reverse.take 7 = " Prices".data.reverse then t.take (t.length - 7) else t

/-- A fetched PriceCharting game page: the parsed chart block when present
and well-formed, the three fallback price elements, and the `h1` element's
text nodes when an `h1` exists. -/
structure PCPage where
  chart : Option ChartSeries
  usedEl : Option PriceEl
  completeEl : Option PriceEl
  newEl : Option PriceEl
  h1 : Option (List String)
  deriving DecidableEq

/-- The page title (`src/scraper.py` lines 144-155): first non-empty
stripped text node of the `h1`, else its whitespace-collapsed full text,
with a `" Prices"` suffix dropped; a missing `h1` humanizes the slug. -/
def pcTitleOf (page : PCPage) (game_slug : String) : String :=
  match page.h1 with
  | some nodes =>
    let first := firstTruthy (nodes.map (fun s => pyStrip s.data))
    let t := if first = [] then joinWith [' '] (splitWs (nodes.map String.data).flatten)
      else first
    ⟨stripPricesSuffix t⟩
  | none => humanizeSlug game_slug

/-- The snapshot returned by `get_pricecharting_prices`. -/
structure PCResult where
  title : String
  url : String
  prices : List (String × ℤ)
  error : Option String
  deriving DecidableEq

/-- Embedding of `get_pricecharting_prices` (`src/scraper.py` lines
107-157).  The HTTP fetch is an `Except` parameter supplied by the
environment: `.error` is a request exception (network error, timeout or the
`raise_for_status` of a non-2xx reply); `.ok` carries the parsed page.  A
missing or malformed chart block is `chart = none`; the fallback tier runs
exactly when the primary dict is empty. -/
def get_pricecharting_prices (pc_console game_slug : String)
    (resp : Except String PCPage) : PCResult :=
  match resp with
  | .error e =>
    { title := humanizeSlug game_slug
      url := pcUrl pc_console game_slug
      prices := []
      error := some e }
  | .ok page =>
    let prim := match page.chart with
      | some c => chartPrices c
      | none => []
    { title := pcTitleOf page game_slug
      url := pcUrl pc_console game_slug
      prices := if prim = [] then
          fallbackPrices page.usedEl page.completeEl page.newEl
        else prim
      error := none }

/-- A chart block with a two-point loose series and a one-point cib series. -/
def wChart : ChartSeries :=
  { used := some [(1, 4000), (2, 4500)], cib := some [(5, 8900)], new := none,
    graded := none, boxonly := none, manualonly := none }

/-- A page carrying both the chart block and a conflicting HTML fallback
element. -/
def wPage : PCPage :=
  { chart := some wChart, usedEl := some ⟨some "39.99", ""⟩,
    completeEl := none, newEl := none, h1 := some ["Zelda"] }

/-- The platform catalog (`src/scraper.py` lines 20-43): filter key, display
name, PriceCharting console slug. -/
def CONSOLES : List (String × String × String) :=
  [("nes", "NES", "nes"),
   ("snes", "SNES", "super-nintendo"),
   ("n64", "N64", "nintendo-64"),
   ("gameboy", "Game Boy", "gameboy"),
   ("gbc", "Game Boy Color", "gameboy-color"),
   ("gba", "GBA", "gameboy-advance"),
   ("gamecube", "GameCube", "gamecube"),
   ("wii", "Wii", "wii"),
   ("nds", "Nintendo DS", "nintendo-ds"),
   ("3ds", "3DS", "nintendo-3ds"),
   ("switch", "Switch", "nintendo-switch"),
   ("genesis", "Sega Genesis", "sega-genesis"),
   ("dreamcast", "Dreamcast", "sega-dreamcast"),
   ("saturn", "Sega Saturn", "sega-saturn"),
   ("gamegear", "Game Gear", "sega-game-gear"),
   ("ps1", "PS1", "playstation"),
   ("ps2", "PS2", "playstation-2"),
   ("ps3", "PS3", "playstation-3"),
   ("psp", "PSP", "psp"),
   ("xbox", "Xbox", "xbox"),
   ("xbox360", "Xbox 360", "xbox-360"),
   ("atari2600", "Atari 2600", "atari-2600")]

/-- `CONSOLES.get(console_key, {}).get("pc") if console_key else None`
(`src/scraper.py` line 65): a falsy key or an unknown key gives no filter. -/
def resolveFilter : Option String → Option (List Char)
  | none => none
  | some k =>
    if k = "" then none
    else (CONSOLES.find? (fun e => e.1 == k)).map (fun e => e.2.2.data)

/-- Does the list start with the pattern? -/
def leadsWith : List Char → List Char → Bool
  | [], _ => true
  | _ :: _, [] => false
  | p :: ps, c :: cs => p = c && leadsWith ps cs

/-- The remainder after the first occurrence of `pat`
(Python `s.split(pat, 1)[1]`), or `none` when `pat` does not occur. -/
def findSub (pat : List Char) : List Char → Option (List Char)
  | [] => if pat = [] then some [] else none
  | c :: cs =>
    if leadsWith pat (c :: cs) then some ((c :: cs).drop pat.length)
    else findSub pat cs

/-- Worker for `splitOn`; the accumulator holds the current piece reversed. -/
def splitOnAux (sep : Char) : List Char → List Char → List (List Char)
  | [], acc => [acc.reverse]
  | c :: cs, acc =>
    if c = sep then acc.reverse :: splitOnAux sep cs []
    else splitOnAux sep cs (c :: acc)

/-- Python `s.split(sep)` with a one-character separator: keeps empty
pieces, always returns at least one piece. -/
def splitOn (sep : Char) (cs : List Char) : List (List Char) :=
  splitOnAux sep cs []

/-- A result-table row: the `td.title a` link (href and text) when present,
the `td.console` text when present, and the `td.price` cell texts. -/
structure SearchRow where
  link : Option (String × String)
  console_el : Option String
  priceCells : List String
  deriving DecidableEq

/-- One entry of the search results. -/
structure SearchResult where
  name : String
  console_name : String
  pc_console : String
  slug : String
  loose_cents : Option ℤ
  cib_cents : Option ℤ
  deriving DecidableEq

/-- Processing of one table row (`src/scraper.py` lines 68-102): skip rows
with no link, no `/game/` in the href, or fewer than two path parts; skip a
row whose console does not match a truthy filter; otherwise build the
result record (console name from the cell, else humanized slug; prices from
the first two price cells). -/
def processRow (filt : Option (List Char)) (row : SearchRow) :
    Option SearchResult :=
  match row.link with
  | none => none
  | some (href, ltext) =>
    match findSub "/game/".data href.data with
    | none => none
    | some path =>
      match splitOn '/' path with
      | p0 :: p1 :: _ =>
        if (match filt with
            | some f => decide (f ≠ [] ∧ p0 ≠ f)
            | none => false) then none
        else some
          { name := pyStripS ltext
            console_name := match row.console_el with
              | some t => pyStripS t
              | none => ⟨pyTitle (replaceDash p0)⟩
            pc_console := ⟨p0⟩
            slug := ⟨p1⟩
            loose_cents := match row.priceCells with
              | t :: _ => _parse_price t
              | [] => none
            cib_cents := match row.priceCells.drop 1 with
              | t :: _ => _parse_price t
              | [] => none }
      | _ => none

/-- Embedding of `search_pricecharting` (`src/scraper.py` lines 46-104).
The HTTP fetch is an `Except` parameter: `.error` is a request exception
(empty result), `.ok none` a page with no games table (empty result),
`.ok (some rows)` the parsed table rows; at most 15 results are kept. -/
def search_pricecharting (resp : Except String (Option (List SearchRow)))
    (console_key : Option String) : List SearchResult :=
  match resp with
  | .error _ => []
  | .ok none => []
  | .ok (some rows) =>
    (rows.filterMap (processRow (resolveFilter console_key))).take 15

/-- Python `dict[k] = v` on an association list: an existing key keeps its
position and gets the new value, a new key is appended. -/
def dictInsert : List (String × BLEntry) → String → BLEntry →
    List (String × BLEntry)
  | [], k, v => [(k, v)]
  | (k0, v0) :: rest, k, v =>
    if k0 = k then (k0, v) :: rest else (k0, v0) :: dictInsert rest k v

/-- A record of the bundled snapshot file: well-formed (`name` and `cents`
keys present) or malformed (a key missing, so the dict comprehension raises
`KeyError`). -/
inductive BundledRec where
  | good (name : String) (cents : ℤ)
  | malformed
  deriving DecidableEq

/-- Is the bundled record well-formed? -/
def isGoodRec : BundledRec → Bool
  | .good _ _ => true
  | .malformed => false

/-- One comprehension step of `_load_buylist_from_json`
(`src/scraper.py` line 213). -/
def insGood (decomp : Char → List Char) (acc : List (String × BLEntry)) :
    BundledRec → List (String × BLEntry)
  | .good name cents => dictInsert acc (_normalise decomp name) ⟨name, cents⟩
  | .malformed => acc

/-- Embedding of `_load_buylist_from_json` (`src/scraper.py` lines
208-216).  The file read and JSON parse are an `Except` parameter: `.error`
is an I/O or JSON exception.  The dict comprehension evaluates the whole
list: one malformed record raises `KeyError`, the handler catches it and
the entire mapping is dropped. -/
def _load_buylist_from_json (decomp : Char → List Char)
    (file : Except String (List BundledRec)) : List (String × BLEntry) :=
  match file with
  | .error _ => []
  | .ok items =>
    if items.all isGoodRec then items.foldl (insGood decomp) [] else []

/-- Strip the price-movement arrows (`re.sub(r"[▲▼]", "", ...)`,
`src/scraper.py` line 233). -/
def rmArrows (cs : List Char) : List Char :=
  cs.filter (fun c => c ≠ '▲' ∧ c ≠ '▼')

/-- A scraped sell-page row: the label text (when a label element exists)
and the price text (when a price element exists). -/
structure LiveRow where
  label : Option String
  price : Option String
  deriving DecidableEq

/-- A live sell-page response: `resp.ok`, whether the body contains the
bot-challenge marker `"just a moment"`, and the parsed rows. -/
structure LiveResp where
  respOk : Bool
  challenged : Bool
  rows : List LiveRow
  deriving DecidableEq

/-- The buy-list built from the live rows (`src/scraper.py` lines 226-236):
rows missing a label or price element are skipped, the price is parsed
after removing movement arrows, and only positive parsed prices are kept. -/
def parseLiveRows (decomp : Char → List Char) (rows : List LiveRow) :
    List (String × BLEntry) :=
  rows.foldl (fun acc row =>
    match row.label, row.price with
    | some name, some ptext =>
      match _parse_price ⟨rmArrows ptext.data⟩ with
      | some c => if 0 < c then dictInsert acc (_normalise decomp name) ⟨name, c⟩
        else acc
      | none => acc
    | _, _ => acc) []

/-- Embedding of `_fetch_dkoldies_buylist` (`src/scraper.py` lines
219-241).  The HTTP fetch is an `Except` parameter: `.error` is a request
exception; a non-ok status or a bot challenge raises inside the `try` and is
caught the same way; an empty scrape also falls through.  Every failure path
ends in the bundled-snapshot fallback. -/
def _fetch_dkoldies_buylist (decomp : Char → List Char)
    (live : Except String LiveResp)
    (file : Except String (List BundledRec)) : List (String × BLEntry) :=
  match live with
  | .error _ => _load_buylist_from_json decomp file
  | .ok r =>
    if r.respOk = false ∨ r.challenged = true then
      _load_buylist_from_json decomp file
    else
      let bl := parseLiveRows decomp r.rows
      if bl = [] then _load_buylist_from_json decomp file else bl

theorem tokChar_not_space {c : Char} (h : tokChar c) : pyIsSpace c = false := by
  rcases h with ⟨h1, h2⟩ | ⟨h1, h2⟩ <;> simp [pyIsSpace] <;> omega

theorem flushAcc_of_ne {acc : List Char} {ts : List (List Char)} (h : acc ≠ []) :
    flushAcc acc ts = acc.reverse :: ts := by
  simp [flushAcc, h]

theorem splitWsAux_sound (cs : List Char) : ∀ (acc : List Char),
    (∀ c ∈ acc, pyIsSpace c = false) →
    ∀ t ∈ splitWsAux cs acc,
      t ≠ [] ∧ ∀ c ∈ t, pyIsSpace c = false ∧ (c ∈ cs ∨ c ∈ acc) := by
  induction cs with
  | nil =>
    intro acc hacc t ht
    unfold splitWsAux flushAcc at ht
    split at ht
    · simp at ht
    · next hne0 =>
      simp only [List.mem_singleton] at ht
      subst ht
      refine ⟨by simpa using hne0, fun c hc => ?_⟩
      rw [List.mem_reverse] at hc
      exact ⟨hacc c hc, Or.inr hc⟩
  | cons c0 rest ih =>
    intro acc hacc t ht
    unfold splitWsAux at ht
    split at ht
    · unfold flushAcc at ht
      split at ht
      · obtain ⟨hne, hch⟩ := ih [] (by simp) t ht
        refine ⟨hne, fun c hc => ⟨(hch c hc).1, ?_⟩⟩
        rcases (hch c hc).2 with h' | h'
        · exact Or.inl (List.mem_cons_of_mem _ h')
        · simp at h'
      · next hne0 =>
        rcases List.mem_cons.mp ht with h | h
        · subst h
          refine ⟨by simpa using hne0, fun c hc => ?_⟩
          rw [List.mem_reverse] at hc
          exact ⟨hacc c hc, Or.inr hc⟩
        · obtain ⟨hne, hch⟩ := ih [] (by simp) t h
          refine ⟨hne, fun c hc => ⟨(hch c hc).1, ?_⟩⟩
          rcases (hch c hc).2 with h' | h'
          · exact Or.inl (List.mem_cons_of_mem _ h')
          · simp at h'
    · next hsp =>
      obtain ⟨hne, hch⟩ := ih (c0 :: acc) (by
        intro c hc
        rcases List.mem_cons.mp hc with h | h
        · subst h; simpa using hsp
        · exact hacc c h) t ht
      refine ⟨hne, fun c hc => ⟨(hch c hc).1, ?_⟩⟩
      rcases (hch c hc).2 with h' | h'
      · exact Or.inl (List.mem_cons_of_mem _ h')
      · rcases List.mem_cons.mp h' with h'' | h''
        · subst h''; exact Or.inl (List.mem_cons_self _ _)
        · exact Or.inr h''

theorem splitWs_sound (cs : List Char) :
    ∀ t ∈ splitWs cs, t ≠ [] ∧ ∀ c ∈ t, pyIsSpace c = false ∧ c ∈ cs := by
  intro t ht
  obtain ⟨hne, hch⟩ := splitWsAux_sound cs [] (by simp) t ht
  refine ⟨hne, fun c hc => ⟨(hch c hc).1, ?_⟩⟩
  rcases (hch c hc).2 with h | h
  · exact h
  · simp at h

theorem splitWsAux_run (t : List Char) : ∀ (cs acc : List Char),
    (∀ c ∈ t, pyIsSpace c = false) →
    splitWsAux (t ++ cs) acc = splitWsAux cs (t.reverse ++ acc) := by
  induction t with
  | nil => intro cs acc _; simp
  | cons c t' ih =>
    intro cs acc h
    have hc : pyIsSpace c = false := h c (List.mem_cons_self _ _)
    simp only [List.cons_append, splitWsAux, hc, Bool.false_eq_true, if_false,
      List.append_eq]
    rw [ih cs (c :: acc) (fun c' hc' => h c' (List.mem_cons_of_mem _ hc'))]
    simp [List.append_assoc]

theorem splitWs_joinWith : ∀ (ts : List (List Char)),
    (∀ t ∈ ts, t ≠ [] ∧ ∀ c ∈ t, pyIsSpace c = false) →
    splitWs (joinWith [' '] ts) = ts := by
  intro ts
  induction ts with
  | nil => intro _; rfl
  | cons t rest ih =>
    intro h
    obtain ⟨hne, hch⟩ := h t (List.mem_cons_self _ _)
    have hrevne : t.reverse ≠ [] := fun hr => hne (by simpa using hr)
    cases rest with
    | nil =>
      show splitWsAux (joinWith [' '] [t]) [] = [t]
      simp only [joinWith]
      have h1 : splitWsAux (t ++ ([] : List Char)) [] = splitWsAux [] (t.reverse ++ []) :=
        splitWsAux_run t [] [] hch
      simp only [List.append_nil] at h1
      rw [h1]
      unfold splitWsAux
      rw [flushAcc_of_ne hrevne]
      simp
    | cons t2 rest2 =>
      show splitWsAux (joinWith [' '] (t :: t2 :: rest2)) [] = t :: t2 :: rest2
      simp only [joinWith]
      rw [List.append_assoc]
      rw [splitWsAux_run t _ [] hch]
      simp only [List.append_nil]
      show splitWsAux (' ' :: joinWith [' '] (t2 :: rest2)) t.reverse = t :: t2 :: rest2
      unfold splitWsAux
      rw [if_pos (by simp [pyIsSpace])]
      rw [flushAcc_of_ne hrevne]
      simp only [List.reverse_reverse]
      congr 1
      exact ih (fun t' ht' => h t' (List.mem_cons_of_mem _ ht'))

theorem mem_joinWith_space : ∀ (ts : List (List Char)) (c : Char),
    c ∈ joinWith [' '] ts → c = ' ' ∨ ∃ t ∈ ts, c ∈ t := by
  intro ts
  induction ts with
  | nil => intro c hc; simp [joinWith] at hc
  | cons t rest ih =>
    intro c hc
    cases rest with
    | nil =>
      simp only [joinWith] at hc
      exact Or.inr ⟨t, List.mem_cons_self _ _, hc⟩
    | cons t2 rest2 =>
      simp only [joinWith, List.append_assoc, List.mem_append, List.cons_append,
        List.mem_cons] at hc
      rcases hc with hc | hc
      · exact Or.inr ⟨t, List.mem_cons_self _ _, hc⟩
      · rcases hc with hc | hc
        · exact Or.inl hc
        · rcases ih c (by simpa [joinWith] using hc) with h' | ⟨t', ht', hct'⟩
          · exact Or.inl h'
          · exact Or.inr ⟨t', List.mem_cons_of_mem _ ht', hct'⟩

theorem flatMap_id_of (l : List Char) (f : Char → List Char)
    (h : ∀ c ∈ l, f c = [c]) : l.flatMap f = l := by
  induction l with
  | nil => rfl
  | cons c l' ih =>
    simp only [List.flatMap_cons, h c (List.mem_cons_self _ _)]
    rw [ih (fun c' hc' => h c' (List.mem_cons_of_mem _ hc'))]
    rfl

theorem filter_id_of {α : Type} (l : List α) (p : α → Bool)
    (h : ∀ a ∈ l, p a = true) : l.filter p = l := by
  induction l with
  | nil => rfl
  | cons a l' ih =>
    rw [List.filter_cons_of_pos (h a (List.mem_cons_self _ _))]
    rw [ih (fun a' ha' => h a' (List.mem_cons_of_mem _ ha'))]

theorem map_id_of {α : Type} (l : List α) (f : α → α)
    (h : ∀ a ∈ l, f a = a) : l.map f = l := by
  induction l with
  | nil => rfl
  | cons a l' ih =>
    simp only [List.map_cons, h a (List.mem_cons_self _ _)]
    rw [ih (fun a' ha' => h a' (List.mem_cons_of_mem _ ha'))]

theorem normTokens_sound (decomp : Char → List Char) (cs : List Char) :
    ∀ t ∈ normTokens decomp cs,
      t ≠ [] ∧ stopwords.contains t = false ∧ ∀ c ∈ t, tokChar c := by
  intro t ht
  unfold normTokens at ht
  rw [List.mem_filter] at ht
  obtain ⟨hmem, hstop⟩ := ht
  obtain ⟨hne, hch⟩ := splitWs_sound _ t hmem
  refine ⟨hne, by simpa using hstop, fun c hc => ?_⟩
  obtain ⟨hns, hin⟩ := hch c hc
  rw [List.mem_map] at hin
  obtain ⟨c0, _, hc0⟩ := hin
  unfold keepCh at hc0
  split at hc0
  · next hcond =>
    subst hc0
    rcases hcond with h | h | h
    · exact Or.inl h
    · exact Or.inr h
    · exfalso
      rw [pyIsSpace] at hns
      simp [h] at hns
  · subst hc0
    simp [pyIsSpace] at hns

/-- C5: for every string s, normalize is idempotent:
`normalize(normalize(s)) = normalize(s)`.  The hypothesis states the one fact
used about the NFKD decomposition: it maps each ASCII character in
`[a-z0-9 ]` to itself. -/
theorem c5_normalise_idempotent (decomp : Char → List Char)
    (h : ∀ c : Char,
      ((97 ≤ c.toNat ∧ c.toNat ≤ 122) ∨ (48 ≤ c.toNat ∧ c.toNat ≤ 57) ∨
        c.toNat = 32) → decomp c = [c])
    (s : String) :
    _normalise decomp (_normalise decomp s) = _normalise decomp s := by
  have hsound := normTokens_sound decomp s.data
  set ts := normTokens decomp s.data with hts
  set r := joinWith [' '] ts with hr
  have hrchars : ∀ c ∈ r,
      (97 ≤ c.toNat ∧ c.toNat ≤ 122) ∨ (48 ≤ c.toNat ∧ c.toNat ≤ 57) ∨
        c.toNat = 32 := by
    intro c hc
    rcases mem_joinWith_space ts c hc with h' | ⟨t, ht, hct⟩
    · right; right; rw [h']; rfl
    · rcases (hsound t ht).2.2 c hct with h' | h'
      · exact Or.inl h'
      · exact Or.inr (Or.inl h')
  have h1 : r.flatMap decomp = r :=
    flatMap_id_of r decomp (fun c hc => h c (hrchars c hc))
  have h2 : r.filter (fun c => c.toNat < 128) = r := by
    apply filter_id_of
    intro c hc
    have hcc := hrchars c hc
    simp only [decide_eq_true_eq]
    omega
  have h3 : r.map pyLower = r := by
    apply map_id_of
    intro c hc
    have hcc := hrchars c hc
    unfold pyLower
    rw [if_neg (by omega)]
  have h4 : r.map keepCh = r := by
    apply map_id_of
    intro c hc
    have hcc := hrchars c hc
    unfold keepCh
    rw [if_pos (by omega)]
  have h5 : splitWs r = ts := by
    apply splitWs_joinWith
    intro t ht
    exact ⟨(hsound t ht).1,
      fun c hc => tokChar_not_space ((hsound t ht).2.2 c hc)⟩
  have h6 : ts.filter (fun t => !(stopwords.contains t)) = ts := by
    apply filter_id_of
    intro t ht
    rw [(hsound t ht).2.1]
    rfl
  have hNs : _normalise decomp s = ⟨r⟩ := rfl
  rw [hNs]
  have hdata : (⟨r⟩ : String).data = r := rfl
  unfold _normalise normTokens
  rw [hdata, h1, h2, h3, h4, h5, h6]

/-- Witness for c5 at a concrete noisy title, with the identity decomposition. -/
theorem c5_normalise_idempotent_witness :
    _normalise decompId (_normalise decompId "Zelda: Ocarina of Time (N64)") =
      _normalise decompId "Zelda: Ocarina of Time (N64)" :=
  c5_normalise_idempotent decompId (fun _ _ => rfl) "Zelda: Ocarina of Time (N64)"

theorem listMaxQ_nil : listMaxQ [] = 0 := rfl

theorem listMaxQ_cons (q : ℚ) (rest : List ℚ) :
    listMaxQ (q :: rest) = max q (listMaxQ rest) := rfl

theorem scoreKey_nonneg (nw : Finset (List Char)) (k : String) :
    0 ≤ scoreKey nw k := by
  unfold scoreKey
  apply div_nonneg <;> positivity

theorem listMaxQ_nonneg (l : List ℚ) : 0 ≤ listMaxQ l := by
  induction l with
  | nil => exact le_refl 0
  | cons q rest ih =>
    rw [listMaxQ_cons]
    exact le_max_of_le_right ih

theorem listMaxQ_mem {l : List ℚ} (h : 0 < listMaxQ l) : listMaxQ l ∈ l := by
  induction l with
  | nil => simp only [listMaxQ] at h; exact absurd h (lt_irrefl 0)
  | cons q rest ih =>
    rw [listMaxQ_cons] at h ⊢
    rcases max_choice q (listMaxQ rest) with h' | h'
    · rw [h']; exact List.mem_cons_self _ _
    · rw [h']
      rw [h'] at h
      exact List.mem_cons_of_mem _ (ih h)

theorem bestLoop_snd_le (nw : Finset (List Char)) :
    ∀ (keys : List String) (acc : Option String × ℚ),
      acc.2 ≤ (bestLoop nw keys acc).2 := by
  intro keys
  induction keys with
  | nil => intro acc; exact le_refl _
  | cons k rest ih =>
    intro acc
    simp only [bestLoop]
    by_cases hk : keyTokens k = ∅
    · rw [if_pos hk]; exact ih acc
    · rw [if_neg hk]
      by_cases himp : acc.2 < scoreKey nw k
      · rw [if_pos himp]
        exact le_trans (le_of_lt himp) (ih (some k, scoreKey nw k))
      · rw [if_neg himp]; exact ih acc

theorem bestLoop_snd_eq (nw : Finset (List Char)) :
    ∀ (keys : List String) (acc : Option String × ℚ), 0 ≤ acc.2 →
      (bestLoop nw keys acc).2 = max acc.2 (bestScoreSpec nw keys) := by
  intro keys
  induction keys with
  | nil =>
    intro acc h0
    simp only [bestLoop, bestScoreSpec, candKeys, List.filter_nil, List.map_nil,
      listMaxQ_nil]
    exact (max_eq_left h0).symm
  | cons k rest ih =>
    intro acc h0
    simp only [bestLoop, bestScoreSpec, candKeys, List.filter_cons]
    by_cases hk : keyTokens k = ∅
    · have hcond : ¬(decide (keyTokens k ≠ ∅) = true) := by simp [hk]
      rw [if_pos hk, if_neg hcond]
      exact ih acc h0
    · have hcond : decide (keyTokens k ≠ ∅) = true := decide_eq_true hk
      rw [if_neg hk, if_pos hcond]
      simp only [List.map_cons, listMaxQ_cons]
      by_cases himp : acc.2 < scoreKey nw k
      · rw [if_pos himp]
        rw [ih (some k, scoreKey nw k) (scoreKey_nonneg nw k)]
        simp only [bestScoreSpec, candKeys]
        have h1 : acc.2 ≤ max (scoreKey nw k)
            (listMaxQ ((rest.filter (fun k => keyTokens k ≠ ∅)).map (scoreKey nw))) :=
          le_trans (le_of_lt himp) (le_max_left _ _)
        rw [max_eq_right h1]
      · rw [if_neg himp]
        rw [ih acc h0]
        simp only [bestScoreSpec, candKeys]
        have hle : scoreKey nw k ≤ acc.2 := not_lt.mp himp
        conv_rhs => rw [← max_assoc, max_eq_left hle]

theorem bestLoop_fst_of_snd_eq (nw : Finset (List Char)) :
    ∀ (keys : List String) (acc : Option String × ℚ),
      (bestLoop nw keys acc).2 = acc.2 → (bestLoop nw keys acc).1 = acc.1 := by
  intro keys
  induction keys with
  | nil => intro acc _; rfl
  | cons k rest ih =>
    intro acc h
    simp only [bestLoop] at h ⊢
    by_cases hk : keyTokens k = ∅
    · rw [if_pos hk] at h ⊢; exact ih acc h
    · rw [if_neg hk] at h ⊢
      by_cases himp : acc.2 < scoreKey nw k
      · rw [if_pos himp] at h
        have := bestLoop_snd_le nw rest (some k, scoreKey nw k)
        simp only at this
        rw [h] at this
        exact absurd (lt_of_lt_of_le himp this) (lt_irrefl _)
      · rw [if_neg himp] at h ⊢; exact ih acc h

theorem bestLoop_fst_firstHit (nw : Finset (List Char)) :
    ∀ (keys : List String) (acc : Option String × ℚ), 0 ≤ acc.2 →
      acc.2 < (bestLoop nw keys acc).2 →
      (bestLoop nw keys acc).1 = firstHit nw keys (bestLoop nw keys acc).2 := by
  intro keys
  induction keys with
  | nil =>
    intro acc _ hlt
    simp only [bestLoop] at hlt
    exact absurd hlt (lt_irrefl _)
  | cons k rest ih =>
    intro acc h0 hlt
    simp only [bestLoop] at hlt ⊢
    by_cases hk : keyTokens k = ∅
    · rw [if_pos hk] at hlt ⊢
      rw [ih acc h0 hlt]
      unfold firstHit
      rw [List.find?_cons_of_neg]
      simp [hk]
    · rw [if_neg hk] at hlt ⊢
      by_cases himp : acc.2 < scoreKey nw k
      · rw [if_pos himp] at hlt ⊢
        by_cases hres : (bestLoop nw rest (some k, scoreKey nw k)).2 = scoreKey nw k
        · have h1 : (bestLoop nw rest (some k, scoreKey nw k)).1 = some k := by
            have := bestLoop_fst_of_snd_eq nw rest (some k, scoreKey nw k) hres
            simpa using this
          rw [h1, hres]
          unfold firstHit
          rw [List.find?_cons_of_pos]
          simp [hk]
        · have hle : scoreKey nw k ≤ (bestLoop nw rest (some k, scoreKey nw k)).2 := by
            have := bestLoop_snd_le nw rest (some k, scoreKey nw k)
            simpa using this
          have hlt2 : scoreKey nw k < (bestLoop nw rest (some k, scoreKey nw k)).2 :=
            lt_of_le_of_ne hle (fun h' => hres h'.symm)
          rw [ih (some k, scoreKey nw k) (scoreKey_nonneg nw k) (by simpa using hlt2)]
          unfold firstHit
          rw [List.find?_cons_of_neg]
          simp only [Bool.and_eq_true, decide_eq_true_eq, not_and]
          intro _
          exact ne_of_lt hlt2
      · rw [if_neg himp] at hlt ⊢
        rw [ih acc h0 hlt]
        unfold firstHit
        rw [List.find?_cons_of_neg]
        have hne : scoreKey nw k ≠ (bestLoop nw rest acc).2 :=
          ne_of_lt (lt_of_le_of_lt (not_lt.mp himp) hlt)
        simp only [Bool.and_eq_true, decide_eq_true_eq, not_and]
        intro _
        exact hne

theorem find?_pair_of_nodup :
    ∀ (l : List (String × BLEntry)) (k : String) (e : BLEntry),
      (l.map Prod.fst).Nodup → (k, e) ∈ l →
      l.find? (fun p => p.1 == k) = some (k, e) := by
  intro l
  induction l with
  | nil => intro k e _ hmem; simp at hmem
  | cons p l' ih =>
    intro k e hnd hmem
    rw [List.map_cons, List.nodup_cons] at hnd
    by_cases hpk : p.1 = k
    · rcases List.mem_cons.mp hmem with h | h
      · rw [List.find?_cons_of_pos]
        · rw [h]
        · simp [hpk]
      · exfalso
        apply hnd.1
        rw [hpk]
        exact List.mem_map.mpr ⟨(k, e), h, rfl⟩
    · rw [List.find?_cons_of_neg _ (by simp [hpk])]
      apply ih k e hnd.2
      rcases List.mem_cons.mp hmem with h | h
      · exact absurd (congrArg Prod.fst h.symm) hpk
      · exact h

theorem scoreKey_empty_nw (k : String) : scoreKey ∅ k = 0 := by
  unfold scoreKey
  rw [Finset.empty_inter]
  simp

theorem keyTokens_empty : keyTokens "" = ∅ := by decide

/-- C1: for every buy-list mapping and query, `match_buy_price` returns absent
for an empty buy-list and for a query with an empty normalized token set;
otherwise, scoring every non-empty key by `|N ∩ K| / max(|N|, |K|)`, it
returns absent exactly when the best score is below 1/2, and otherwise returns
the entry of a best-scoring key. -/
theorem c1_match_buy_price_threshold (decomp : Char → List Char)
    (buylist : List (String × BLEntry)) (q : String)
    (hnd : (buylist.map Prod.fst).Nodup) :
    (buylist = [] → match_buy_price decomp buylist q = none) ∧
    (keyTokens (_normalise decomp q) = ∅ → match_buy_price decomp buylist q = none) ∧
    (bestScoreSpec (keyTokens (_normalise decomp q)) (buylist.map Prod.fst) < 1/2 →
      match_buy_price decomp buylist q = none) ∧
    (1/2 ≤ bestScoreSpec (keyTokens (_normalise decomp q)) (buylist.map Prod.fst) →
      ∃ k e, (k, e) ∈ buylist ∧ keyTokens k ≠ ∅ ∧
        scoreKey (keyTokens (_normalise decomp q)) k =
          bestScoreSpec (keyTokens (_normalise decomp q)) (buylist.map Prod.fst) ∧
        match_buy_price decomp buylist q = some ⟨e.name, e.cents⟩) := by
  refine ⟨?_, ?_, ?_, ?_⟩
  · intro h
    simp [match_buy_price, h]
  · intro h
    by_cases hbl : buylist = []
    · simp [match_buy_price, hbl]
    · simp only [match_buy_price, if_neg hbl]
      rw [if_pos h]
  · intro hlt
    by_cases hbl : buylist = []
    · simp [match_buy_price, hbl]
    · by_cases hnw : keyTokens (_normalise decomp q) = ∅
      · simp only [match_buy_price, if_neg hbl]
        rw [if_pos hnw]
      · simp only [match_buy_price, if_neg hbl]
        rw [if_neg hnw]
        have hr2 : (bestLoop (keyTokens (_normalise decomp q))
            (buylist.map Prod.fst) (none, 0)).2 =
            bestScoreSpec (keyTokens (_normalise decomp q)) (buylist.map Prod.fst) := by
          rw [bestLoop_snd_eq _ _ _ (le_refl 0)]
          exact max_eq_right (listMaxQ_nonneg _)
        have hcond : ¬(1/2 ≤ (bestLoop (keyTokens (_normalise decomp q))
            (buylist.map Prod.fst) (none, 0)).2) := by
          rw [hr2]
          exact not_le.mpr hlt
        rw [if_neg hcond]
  · intro hge
    have hmem := listMaxQ_mem
      (l := ((candKeys (buylist.map Prod.fst)).map
        (scoreKey (keyTokens (_normalise decomp q)))))
      (lt_of_lt_of_le (by norm_num) hge)
    obtain ⟨k0, hk0cand, hk0score⟩ := List.mem_map.mp hmem
    rw [candKeys, List.mem_filter] at hk0cand
    obtain ⟨hk0keys, hk0tok'⟩ := hk0cand
    have hk0tok : keyTokens k0 ≠ ∅ := by simpa using hk0tok'
    have hbl : buylist ≠ [] := by
      intro h
      subst h
      simp at hk0keys
    have hnwne : keyTokens (_normalise decomp q) ≠ ∅ := by
      intro h
      have h0 : bestScoreSpec (keyTokens (_normalise decomp q))
          (buylist.map Prod.fst) = scoreKey (keyTokens (_normalise decomp q)) k0 :=
        hk0score.symm
      rw [h0, h, scoreKey_empty_nw] at hge
      norm_num at hge
    have hr2 : (bestLoop (keyTokens (_normalise decomp q))
        (buylist.map Prod.fst) (none, 0)).2 =
        bestScoreSpec (keyTokens (_normalise decomp q)) (buylist.map Prod.fst) := by
      rw [bestLoop_snd_eq _ _ _ (le_refl 0)]
      exact max_eq_right (listMaxQ_nonneg _)
    have hfst := bestLoop_fst_firstHit (keyTokens (_normalise decomp q))
      (buylist.map Prod.fst) (none, 0) (le_refl 0)
      (by rw [hr2]; exact lt_of_lt_of_le (by norm_num) hge)
    have hex : ∃ x ∈ buylist.map Prod.fst,
        (decide (keyTokens x ≠ ∅) &&
          decide (scoreKey (keyTokens (_normalise decomp q)) x =
            bestScoreSpec (keyTokens (_normalise decomp q)) (buylist.map Prod.fst)))
          = true :=
      ⟨k0, hk0keys, by simp [hk0tok, hk0score, bestScoreSpec]⟩
    obtain ⟨kf, hkf⟩ : ∃ kf, firstHit (keyTokens (_normalise decomp q))
        (buylist.map Prod.fst)
        (bestScoreSpec (keyTokens (_normalise decomp q)) (buylist.map Prod.fst)) =
        some kf := by
      cases hfh : firstHit (keyTokens (_normalise decomp q)) (buylist.map Prod.fst)
          (bestScoreSpec (keyTokens (_normalise decomp q)) (buylist.map Prod.fst)) with
      | none =>
        exfalso
        rw [firstHit, List.find?_eq_none] at hfh
        obtain ⟨x, hx, hpx⟩ := hex
        exact absurd hpx (by simpa using hfh x hx)
      | some kf => exact ⟨kf, rfl⟩
    have hkfcopy := hkf
    rw [firstHit] at hkfcopy
    have hkfpred := List.find?_some hkfcopy
    have hkfmem := List.mem_of_find?_eq_some hkfcopy
    simp only [Bool.and_eq_true, decide_eq_true_eq] at hkfpred
    obtain ⟨hkftok, hkfscore⟩ := hkfpred
    obtain ⟨pf, hpfmem, hpffst⟩ := List.mem_map.mp hkfmem
    have hpair : (kf, pf.2) ∈ buylist := by
      rw [← hpffst]
      simpa using hpfmem
    refine ⟨kf, pf.2, hpair, hkftok, hkfscore, ?_⟩
    have hfst1 : (bestLoop (keyTokens (_normalise decomp q))
        (buylist.map Prod.fst) (none, 0)).1 = some kf := by
      rw [hfst, hr2]
      exact hkf
    have hcond : 1/2 ≤ (bestLoop (keyTokens (_normalise decomp q))
        (buylist.map Prod.fst) (none, 0)).2 := by
      rw [hr2]
      exact hge
    have hkfne : kf ≠ "" := by
      intro h
      apply hkftok
      rw [h, keyTokens_empty]
    simp only [match_buy_price, if_neg hbl]
    rw [if_neg hnwne, if_pos hcond]
    simp only [hfst1]
    rw [if_neg hkfne]
    rw [find?_pair_of_nodup buylist kf pf.2 hnd hpair]

/-- Witness for c1 at the spec's own example: buy-list
`{"super mario bros 3": 4500}` and query `"Super Mario Bros. 3"` give score 1,
so the entry is returned. -/
theorem c1_match_buy_price_threshold_witness :
    ∃ k e, (k, e) ∈ wBuylist ∧ keyTokens k ≠ ∅ ∧
      scoreKey (keyTokens (_normalise decompId "Super Mario Bros. 3")) k =
        bestScoreSpec (keyTokens (_normalise decompId "Super Mario Bros. 3"))
          (wBuylist.map Prod.fst) ∧
      match_buy_price decompId wBuylist "Super Mario Bros. 3" =
        some ⟨e.name, e.cents⟩ :=
  (c1_match_buy_price_threshold decompId wBuylist "Super Mario Bros. 3"
    (by decide)).2.2.2 (by with_unfolding_all decide)

/-- C7: acquisition happens exactly when the elapsed time exceeds the TTL or
the cached mapping is empty; otherwise the cached mapping is returned
unchanged with no acquisition; and after a refresh that stored a non-empty
mapping, no acquisition happens for the rest of the interval. -/
theorem c7_cache_refresh_policy (cache : BuylistCache) (now : ℚ)
    (acquired : List (String × BLEntry)) :
    ((_DKO_BUYLIST_TTL < now - cache.fetched_at ∨ cache.data = []) →
      get_buylist cache now acquired = (acquired, ⟨acquired, now⟩)) ∧
    (¬(_DKO_BUYLIST_TTL < now - cache.fetched_at ∨ cache.data = []) →
      ∀ acquired' : List (String × BLEntry),
        get_buylist cache now acquired' = (cache.data, cache)) ∧
    (∀ (now' : ℚ) (acquired' : List (String × BLEntry)),
      acquired ≠ [] → now' - now ≤ _DKO_BUYLIST_TTL →
      get_buylist ⟨acquired, now⟩ now' acquired' = (acquired, ⟨acquired, now⟩)) := by
  refine ⟨?_, ?_, ?_⟩
  · intro h
    simp only [get_buylist]
    rw [if_pos h]
  · intro h acquired'
    simp only [get_buylist]
    rw [if_neg h]
  · intro now' acquired' h1 h2
    have hcond : ¬(_DKO_BUYLIST_TTL < now' -
        (⟨acquired, now⟩ : BuylistCache).fetched_at ∨
        (⟨acquired, now⟩ : BuylistCache).data = []) := by
      rintro (h3 | h3)
      · exact absurd h3 (not_lt.mpr h2)
      · exact h1 h3
    simp only [get_buylist]
    rw [if_neg hcond]

/-- Witness for c7: a refresh stored a one-entry mapping at time 50; at time
3650 (exactly the TTL later) the cached mapping is returned unchanged even
though a fresh acquisition would return the empty mapping. -/
theorem c7_cache_refresh_policy_witness :
    get_buylist ⟨[("mario", ⟨"Mario", 100⟩)], 50⟩ 3650 [] =
      ([("mario", ⟨"Mario", 100⟩)], ⟨[("mario", ⟨"Mario", 100⟩)], 50⟩) :=
  (c7_cache_refresh_policy ⟨[], 0⟩ 50 [("mario", ⟨"Mario", 100⟩)]).2.2
    3650 [] (by decide) (by with_unfolding_all decide)

theorem zpow2_eq (e : ℤ) : zpow2 e = (2 : ℚ) ^ e := by
  unfold zpow2
  split
  · next h =>
    rw [Nat.cast_pow, Nat.cast_ofNat, ← zpow_natCast, Int.toNat_of_nonneg h]
  · next h =>
    rw [Nat.cast_pow, Nat.cast_ofNat, ← zpow_natCast,
      Int.toNat_of_nonneg (by omega : (0 : ℤ) ≤ -e), ← zpow_neg, neg_neg]

/-- Round half to even is within half a unit of its argument. -/
theorem rhe_err (q : ℚ) : |(rhe q : ℚ) - q| ≤ 1 / 2 := by
  have h1 : (⌊q⌋ : ℚ) ≤ q := Int.floor_le q
  have h2 : q < ⌊q⌋ + 1 := Int.lt_floor_add_one q
  simp only [rhe]
  split_ifs with ha hb hc
  · rw [abs_sub_comm, abs_of_nonneg (by linarith)]
    linarith
  · rw [abs_sub_comm, abs_of_nonneg (by linarith)]
    linarith
  · push_cast
    rw [abs_of_nonneg (by linarith)]
    linarith
  · have : 1 / 2 < q - (⌊q⌋ : ℚ) := lt_of_le_of_ne (not_lt.mp ha) (fun h => hb h.symm)
    push_cast
    rw [abs_of_nonneg (by linarith)]
    linarith

/-- The fuel-based binary logarithm is exact whenever the fuel suffices. -/
theorem natLog2F_spec : ∀ (fuel n : ℕ), 1 ≤ n → n ≤ fuel →
    2 ^ natLog2F fuel n ≤ n ∧ n < 2 ^ (natLog2F fuel n + 1) := by
  intro fuel
  induction fuel with
  | zero => intro n h1 h2; omega
  | succ fuel ih =>
    intro n h1 h2
    by_cases h : 2 ≤ n
    · have hlt : n / 2 < n := Nat.div_lt_self (by omega) (by norm_num)
      have hrec := ih (n / 2) (by omega) (by omega)
      have hmod := Nat.div_add_mod n 2
      have heq : natLog2F (fuel + 1) n = natLog2F fuel (n / 2) + 1 := by
        simp [natLog2F, h]
      rw [heq]
      have hp1 : 2 ^ (natLog2F fuel (n / 2) + 1) = 2 * 2 ^ natLog2F fuel (n / 2) := by
        ring
      have hp2 : 2 ^ (natLog2F fuel (n / 2) + 1 + 1) =
          2 * 2 ^ (natLog2F fuel (n / 2) + 1) := by ring
      omega
    · have hn : n = 1 := by omega
      subst hn
      have heq : natLog2F (fuel + 1) 1 = 0 := by simp [natLog2F]
      rw [heq]
      omega

/-- `log2N` brackets every positive natural between consecutive powers of 2. -/
theorem log2N_spec (n : ℕ) (h : 1 ≤ n) :
    2 ^ log2N n ≤ n ∧ n < 2 ^ (log2N n + 1) :=
  natLog2F_spec n n h (le_refl n)

/-- `floorLog2Q` brackets every positive rational between consecutive powers
of 2. -/
theorem floorLog2Q_spec (q : ℚ) (hq : 0 < q) :
    (2 : ℚ) ^ floorLog2Q q ≤ q ∧ q < (2 : ℚ) ^ (floorLog2Q q + 1) := by
  have hnum : 0 < q.num := Rat.num_pos.mpr hq
  have hden : 0 < q.den := q.pos
  have hA := log2N_spec q.num.natAbs (by omega)
  have hB := log2N_spec q.den (by omega)
  set a := log2N q.num.natAbs with ha
  set b := log2N q.den with hb
  have hcast : ((q.num.natAbs : ℕ) : ℚ) = (q.num : ℚ) := by
    have h1 : (q.num.natAbs : ℤ) = q.num := Int.natAbs_of_nonneg hnum.le
    calc ((q.num.natAbs : ℕ) : ℚ) = (((q.num.natAbs : ℕ) : ℤ) : ℚ) :=
        (Int.cast_natCast _).symm
      _ = (q.num : ℚ) := by rw [h1]
  have hqd : q = ((q.num.natAbs : ℕ) : ℚ) / ((q.den : ℕ) : ℚ) := by
    rw [hcast, Rat.num_div_den]
  have hApos : (0 : ℚ) < ((q.num.natAbs : ℕ) : ℚ) := by
    rw [hcast]; exact_mod_cast hnum
  have hDpos : (0 : ℚ) < ((q.den : ℕ) : ℚ) := by exact_mod_cast hden
  have hA2 : ((q.num.natAbs : ℕ) : ℚ) < (2 : ℚ) ^ (a + 1) := by exact_mod_cast hA.2
  have hA1 : (2 : ℚ) ^ a ≤ ((q.num.natAbs : ℕ) : ℚ) := by exact_mod_cast hA.1
  have hB1 : (2 : ℚ) ^ b ≤ ((q.den : ℕ) : ℚ) := by exact_mod_cast hB.1
  have hB2 : ((q.den : ℕ) : ℚ) < (2 : ℚ) ^ (b + 1) := by exact_mod_cast hB.2
  have hsplit1 : (2 : ℚ) ^ ((a : ℤ) - (b : ℤ) + 1) =
      (2 : ℚ) ^ (a + 1) / (2 : ℚ) ^ b := by
    rw [← zpow_natCast (2 : ℚ) (a + 1), ← zpow_natCast (2 : ℚ) b,
      ← zpow_sub₀ (by norm_num : (2 : ℚ) ≠ 0)]
    congr 1
    push_cast
    ring
  have hsplit2 : (2 : ℚ) ^ ((a : ℤ) - (b : ℤ) - 1) =
      (2 : ℚ) ^ a / (2 : ℚ) ^ (b + 1) := by
    rw [← zpow_natCast (2 : ℚ) a, ← zpow_natCast (2 : ℚ) (b + 1),
      ← zpow_sub₀ (by norm_num : (2 : ℚ) ≠ 0)]
    congr 1
    push_cast
    ring
  have goal1 : q < (2 : ℚ) ^ ((a : ℤ) - (b : ℤ) + 1) := by
    rw [hsplit1]
    conv_lhs => rw [hqd]
    rw [div_lt_div_iff₀ hDpos (by positivity)]
    calc ((q.num.natAbs : ℕ) : ℚ) * (2 : ℚ) ^ b
        < (2 : ℚ) ^ (a + 1) * (2 : ℚ) ^ b :=
          mul_lt_mul_of_pos_right hA2 (by positivity)
      _ ≤ (2 : ℚ) ^ (a + 1) * ((q.den : ℕ) : ℚ) :=
          mul_le_mul_of_nonneg_left hB1 (by positivity)
  have goal2 : (2 : ℚ) ^ ((a : ℤ) - (b : ℤ) - 1) < q := by
    rw [hsplit2]
    conv_rhs => rw [hqd]
    rw [div_lt_div_iff₀ (by positivity) hDpos]
    calc (2 : ℚ) ^ a * ((q.den : ℕ) : ℚ)
        < (2 : ℚ) ^ a * (2 : ℚ) ^ (b + 1) :=
          mul_lt_mul_of_pos_left hB2 (by positivity)
      _ ≤ ((q.num.natAbs : ℕ) : ℚ) * (2 : ℚ) ^ (b + 1) :=
          mul_le_mul_of_nonneg_right hA1 (by positivity)
  simp only [floorLog2Q, ← ha, ← hb]
  rw [zpow2_eq]
  split_ifs with h
  · exact ⟨h, goal1⟩
  · refine ⟨goal2.le, ?_⟩
    rw [sub_add_cancel]
    exact not_le.mp h

/-- Any exponent whose power of 2 is below `q` is at most `floorLog2Q q`. -/
theorem le_floorLog2Q (q : ℚ) (hq : 0 < q) (m : ℤ) (h : (2 : ℚ) ^ m ≤ q) :
    m ≤ floorLog2Q q := by
  by_contra hc
  push_neg at hc
  have h2 := (floorLog2Q_spec q hq).2
  have : q < (2 : ℚ) ^ m :=
    lt_of_lt_of_le h2 (zpow_le_zpow_right₀ one_le_two (by omega))
  linarith

/-- `roundF64` on the if-guard of a nonzero argument. -/
theorem roundF64_of_ne (q : ℚ) (hq : q ≠ 0) :
    roundF64 q =
      (rhe (q / zpow2 (max (floorLog2Q |q| - 52) (-1074))) : ℚ) *
        zpow2 (max (floorLog2Q |q| - 52) (-1074)) := by
  simp [roundF64, hq]

/-- Relative error of binary64 rounding on a positive normal-range rational:
at most one part in 2^53. -/
theorem roundF64_err_rel (q : ℚ) (hq : 0 < q) (he : -1022 ≤ floorLog2Q q) :
    |roundF64 q - q| ≤ q * ((2 : ℚ) ^ (53 : ℕ))⁻¹ := by
  have habs : |q| = q := abs_of_pos hq
  have hmax : max (floorLog2Q q - 52) (-1074) = floorLog2Q q - 52 :=
    max_eq_left (by omega)
  have heq := roundF64_of_ne q (ne_of_gt hq)
  rw [habs, hmax] at heq
  set l := floorLog2Q q with hl
  set z := zpow2 (l - 52) with hz
  have hzpos : (0 : ℚ) < z := by
    rw [hz, zpow2_eq]
    positivity
  have hkey : roundF64 q - q = ((rhe (q / z) : ℚ) - q / z) * z := by
    rw [heq]
    field_simp
  have hb : |roundF64 q - q| ≤ (1 / 2) * z := by
    rw [hkey, abs_mul, abs_of_pos hzpos]
    exact mul_le_mul_of_nonneg_right (rhe_err _) hzpos.le
  have hcollapse : (1 / 2 : ℚ) * z = (2 : ℚ) ^ (l - 53) := by
    rw [hz, zpow2_eq]
    rw [show l - 53 = l - 52 + (-1) by ring, zpow_add₀ (by norm_num : (2 : ℚ) ≠ 0)]
    rw [zpow_neg_one]
    ring
  have hsplit : (2 : ℚ) ^ (l - 53) = (2 : ℚ) ^ l * (2 : ℚ) ^ (-53 : ℤ) := by
    rw [← zpow_add₀ (by norm_num : (2 : ℚ) ≠ 0)]
    ring_nf
  have hfin : (2 : ℚ) ^ (l - 53) ≤ q * ((2 : ℚ) ^ (53 : ℕ))⁻¹ := by
    rw [hsplit]
    have h1 : (2 : ℚ) ^ (-53 : ℤ) = ((2 : ℚ) ^ (53 : ℕ))⁻¹ := by
      rw [zpow_neg]
      norm_num
    rw [h1]
    exact mul_le_mul_of_nonneg_right (floorLog2Q_spec q hq).1 (by positivity)
  calc |roundF64 q - q| ≤ (1 / 2) * z := hb
    _ = (2 : ℚ) ^ (l - 53) := hcollapse
    _ ≤ q * ((2 : ℚ) ^ (53 : ℕ))⁻¹ := hfin

/-- `float64` is finite below the overflow threshold. -/
theorem float64_fin (q : ℚ) (h : |roundF64 q| < ((2 ^ 1024 : ℕ) : ℚ)) :
    float64 q = .fin (roundF64 q) := by
  simp only [float64]
  rw [if_neg (not_le.mpr h)]

/-- `digitsLoop` consumes exactly a leading all-digit run: on `ds ++ t` with
`ds` all digits and `t` empty or starting with a non-digit other than `_`,
it returns the accumulated value, the digit count and `t`. -/
theorem digitsLoop_digits :
    ∀ (ds : List Char), (∀ c ∈ ds, isDigitCh c = true) →
    ∀ (t : List Char), (∀ c cs, t = c :: cs → isDigitCh c = false ∧ c ≠ '_') →
    ∀ (v n : ℕ), digitsLoop (ds ++ t) v n = (dval ds v, n + ds.length, t) := by
  intro ds
  induction ds with
  | nil =>
    intro _ t ht v n
    cases t with
    | nil => simp [digitsLoop, dval]
    | cons c cs =>
      obtain ⟨hd, hu⟩ := ht c cs rfl
      cases cs with
      | nil => simp [digitsLoop, dval, hd]
      | cons d r => simp [digitsLoop, dval, hd, hu]
  | cons c ds ih =>
    intro hds t ht v n
    have hc : isDigitCh c = true := hds c (by simp)
    have hds2 : ∀ x ∈ ds, isDigitCh x = true := fun x hx => hds x (by simp [hx])
    cases happ : ds ++ t with
    | nil =>
      obtain ⟨hds0, ht0⟩ := List.append_eq_nil.mp happ
      subst hds0 ht0
      simp [digitsLoop, dval, hc]
    | cons d r =>
      have : digitsLoop (c :: (ds ++ t)) v n =
          digitsLoop (ds ++ t) (10 * v + digitVal c) (n + 1) := by
        rw [happ]
        simp [digitsLoop, hc]
      rw [List.cons_append, this, ih hds2 t ht (10 * v + digitVal c) (n + 1)]
      simp [dval]
      omega

/-- `dropWhile` is the identity when no element satisfies the predicate. -/
theorem dropWhile_no (p : Char → Bool) (cs : List Char)
    (h : ∀ c ∈ cs, p c = false) : cs.dropWhile p = cs := by
  cases cs with
  | nil => rfl
  | cons c cs => simp [List.dropWhile_cons, h c (by simp)]

/-- `str.strip()` is the identity on a string with no whitespace at all. -/
theorem pyStrip_of_no_space (cs : List Char)
    (h : ∀ c ∈ cs, pyIsSpace c = false) : pyStrip cs = cs := by
  unfold pyStrip
  rw [dropWhile_no _ _ h, dropWhile_no _ _ (fun c hc => h c (List.mem_reverse.mp hc)),
    List.reverse_reverse]

/-- Characters of a comma-joined list: the separator or a group character. -/
theorem mem_joinWith_comma : ∀ (ts : List (List Char)) (c : Char),
    c ∈ joinWith [','] ts → c = ',' ∨ ∃ t ∈ ts, c ∈ t := by
  intro ts
  induction ts with
  | nil => intro c hc; simp [joinWith] at hc
  | cons t rest ih =>
    intro c hc
    cases rest with
    | nil =>
      simp only [joinWith] at hc
      exact Or.inr ⟨t, List.mem_cons_self _ _, hc⟩
    | cons t2 rest2 =>
      simp only [joinWith, List.append_assoc, List.mem_append, List.cons_append,
        List.mem_cons] at hc
      rcases hc with h | h | h
      · exact Or.inr ⟨t, by simp, h⟩
      · exact Or.inl h
      · rcases ih c (by simpa [joinWith] using h) with h' | ⟨t', ht', hct'⟩
        · exact Or.inl h'
        · exact Or.inr ⟨t', by simp [ht'], hct'⟩

/-- A digit is kept by the `$`/`,`-stripping filter. -/
theorem digit_not_dollar_comma {c : Char} (h : isDigitCh c = true) :
    c ≠ '$' ∧ c ≠ ',' := by
  constructor <;> intro he <;> subst he <;> exact absurd h (by decide)

/-- A digit is not whitespace. -/
theorem digit_not_space {c : Char} (h : isDigitCh c = true) :
    pyIsSpace c = false := by
  simp only [isDigitCh, decide_eq_true_eq] at h
  simp only [pyIsSpace, Bool.or_eq_false_iff, decide_eq_false_iff_not]
  omega

/-- Dropping `$` and `,` from a comma-joined list of digit groups
concatenates the groups. -/
theorem stripDollarComma_join : ∀ (gs : List (List Char)),
    (∀ g ∈ gs, ∀ c ∈ g, isDigitCh c = true) →
    stripDollarComma (joinWith [','] gs) = gs.flatten := by
  intro gs
  induction gs with
  | nil => intro _; rfl
  | cons g rest ih =>
    intro h
    have hg : ∀ c ∈ g, isDigitCh c = true := h g (by simp)
    have hgf : stripDollarComma g = g := by
      unfold stripDollarComma
      rw [List.filter_eq_self]
      intro c hc
      simpa using digit_not_dollar_comma (hg c hc)
    cases rest with
    | nil =>
      show stripDollarComma (joinWith [','] [g]) = [g].flatten
      have h1 : joinWith [','] [g] = g := rfl
      rw [h1, hgf]
      simp
    | cons g2 rest2 =>
      have hrest : ∀ gx ∈ g2 :: rest2, ∀ c ∈ gx, isDigitCh c = true :=
        fun gx hgx => h gx (by simp [hgx])
      have ihh := ih hrest
      have h1 : joinWith [','] (g :: g2 :: rest2) =
          g ++ [','] ++ joinWith [','] (g2 :: rest2) := rfl
      rw [h1]
      unfold stripDollarComma at hgf ihh ⊢
      rw [List.filter_append, List.filter_append, hgf, ihh]
      have hcomma : List.filter (fun c => decide (c ≠ '$' ∧ c ≠ ',')) [','] = [] := by
        decide
      rw [hcomma]
      simp

/-- `parseSign` leaves a list alone when its head is not a sign. -/
theorem parseSign_of_ne (c : Char) (t : List Char) (h1 : c ≠ '+') (h2 : c ≠ '-') :
    parseSign (c :: t) = (false, c :: t) := by
  unfold parseSign
  split
  · next heq => exact absurd (List.cons.injEq .. ▸ congrArg id heq) (by simp [h1])
  · next heq => exact absurd (List.cons.injEq .. ▸ congrArg id heq) (by simp [h2])
  · rfl

/-- `ciEqWord` is false when the first character is a digit and the word
starts with a lowercase letter. -/
theorem ciEqWord_digit (c : Char) (hc : isDigitCh c = true) (cs : List Char)
    (w : Char) (hw : 97 ≤ w.toNat) (ws : List Char) :
    ciEqWord (c :: cs) (w :: ws) = false := by
  have hlow : pyLower c = c := by
    simp only [isDigitCh, decide_eq_true_eq] at hc
    simp only [pyLower]
    rw [if_neg (by omega)]
  have hne : pyLower c ≠ w := by
    rw [hlow]
    intro he
    simp only [isDigitCh, decide_eq_true_eq] at hc
    have : c.toNat = w.toNat := by rw [he]
    omega
  simp [ciEqWord, hne]

/-- `parseFloatLit` on a dollar-and-cents digit string `DDD.YY`: the exact
decimal value. -/
theorem parseFloatLit_dollar (d0 : Char) (ds : List Char)
    (hds : ∀ c ∈ d0 :: ds, isDigitCh c = true) (y1 y2 : Char)
    (hy1 : isDigitCh y1 = true) (hy2 : isDigitCh y2 = true) :
    parseFloatLit ((d0 :: ds) ++ '.' :: [y1, y2]) =
      some (.num ((dval (d0 :: ds) 0 : ℚ) +
        (dval [y1, y2] 0 : ℚ) / ((10 ^ 2 : ℕ) : ℚ))) := by
  have hd0 : isDigitCh d0 = true := hds d0 (by simp)
  have hnospace : ∀ c ∈ (d0 :: ds) ++ '.' :: [y1, y2], pyIsSpace c = false := by
    intro c hc
    rcases List.mem_append.mp hc with h | h
    · exact digit_not_space (hds c h)
    · simp only [List.mem_cons, List.mem_singleton, List.not_mem_nil, or_false] at h
      rcases h with rfl | rfl | rfl
      · decide
      · exact digit_not_space hy1
      · exact digit_not_space hy2
  have hsign : parseSign (d0 :: (ds ++ '.' :: [y1, y2])) =
      (false, d0 :: (ds ++ '.' :: [y1, y2])) :=
    parseSign_of_ne d0 _ (fun he => by rw [he] at hd0; exact absurd hd0 (by decide))
      (fun he => by rw [he] at hd0; exact absurd hd0 (by decide))
  have hinf : ciEqWord (d0 :: (ds ++ '.' :: [y1, y2])) "inf".data = false := by
    have h : ("inf".data : List Char) = 'i' :: "nf".data := rfl
    rw [h]
    exact ciEqWord_digit _ hd0 _ _ (by decide) _
  have hinfy : ciEqWord (d0 :: (ds ++ '.' :: [y1, y2])) "infinity".data = false := by
    have h : ("infinity".data : List Char) = 'i' :: "nfinity".data := rfl
    rw [h]
    exact ciEqWord_digit _ hd0 _ _ (by decide) _
  have hnan : ciEqWord (d0 :: (ds ++ '.' :: [y1, y2])) "nan".data = false := by
    have h : ("nan".data : List Char) = 'n' :: "an".data := rfl
    rw [h]
    exact ciEqWord_digit _ hd0 _ _ (by decide) _
  have ht00 : ∀ (c : Char) (cs : List Char), '.' :: [y1, y2] = c :: cs →
      isDigitCh c = false ∧ c ≠ '_' := by
    intro c cs h
    injection h with h1 _
    rw [← h1]
    exact ⟨by decide, by decide⟩
  have hloop1 : digitsLoop (d0 :: (ds ++ '.' :: [y1, y2])) 0 0 =
      (dval (d0 :: ds) 0, 0 + (d0 :: ds).length, '.' :: [y1, y2]) := by
    rw [← List.cons_append]
    exact digitsLoop_digits (d0 :: ds) hds _ ht00 0 0
  have hy12 : ∀ c ∈ [y1, y2], isDigitCh c = true := by
    intro c hc
    simp only [List.mem_cons, List.mem_singleton, List.not_mem_nil, or_false] at hc
    rcases hc with rfl | rfl
    · exact hy1
    · exact hy2
  have hloop2 : digitsLoop [y1, y2] 0 0 = (dval [y1, y2] 0, 0 + 2, []) := by
    have h := digitsLoop_digits [y1, y2] hy12 [] (fun c cs h => nomatch h) 0 0
    simpa using h
  simp only [parseFloatLit, List.cons_append,
    pyStrip_of_no_space _ (by simpa only [List.cons_append] using hnospace),
    hsign, hinf, hinfy, hnan, Bool.or_self, Bool.false_eq_true, if_false,
    hloop1, hloop2]
  norm_num [finishFloat]

/-- `float64` of zero is finite zero. -/
theorem float64_zero : float64 0 = .fin 0 := by
  have h0 : roundF64 0 = 0 := by simp [roundF64]
  simp only [float64, h0]
  rw [if_neg]
  push_cast
  norm_num

/-- C3 (amended): `_parse_price` is absent on the empty string and on every
input whose stripped form does not parse as a float literal; on a well-formed
dollar-and-cents string `$X,XXX.YY` of at most 10^15 cents it returns either
the exact cents amount `N` or `N - 1` (the binary64 rounding of `value * 100`
can fall just below the integer `N`, and `int()` truncates). -/
theorem c3_parse_price_amended :
    (_parse_price "" = none) ∧
    (∀ s : String, parseFloatLit (stripDollarComma (pyStrip s.data)) = none →
      _parse_price s = none) ∧
    (∀ (gs : List (List Char)) (y1 y2 : Char),
      gs ≠ [] → (∀ g ∈ gs, g ≠ []) →
      (∀ g ∈ gs, ∀ c ∈ g, isDigitCh c = true) →
      isDigitCh y1 = true → isDigitCh y2 = true →
      dollarCents gs y1 y2 ≤ 10 ^ 15 →
      _parse_price ⟨dollarChars gs y1 y2⟩ = some (dollarCents gs y1 y2 : ℤ) ∨
      _parse_price ⟨dollarChars gs y1 y2⟩ =
        some ((dollarCents gs y1 y2 : ℤ) - 1)) := by
  refine ⟨by rfl, ?_, ?_⟩
  · intro s h
    unfold _parse_price
    split_ifs with hs
    · rfl
    · simp [pyFloat, h]
  intro gs y1 y2 hgs_ne hne_groups hdig hy1 hy2 hNle
  set N := dollarCents gs y1 y2 with hN_def
  clear_value N
  have hne : (⟨dollarChars gs y1 y2⟩ : String) ≠ "" := by
    intro h
    have h2 : dollarChars gs y1 y2 = "".data := congrArg String.data h
    simp [dollarChars] at h2
  have hns : ∀ c ∈ dollarChars gs y1 y2, pyIsSpace c = false := by
    intro c hc
    simp only [dollarChars, List.mem_cons] at hc
    rcases hc with rfl | hc
    · decide
    rcases List.mem_append.mp hc with h | h
    · rcases mem_joinWith_comma gs c h with rfl | ⟨t, ht, hct⟩
      · decide
      · exact digit_not_space (hdig t ht c hct)
    · simp only [List.mem_cons, List.mem_singleton, List.not_mem_nil, or_false] at h
      rcases h with rfl | rfl | rfl
      · decide
      · exact digit_not_space hy1
      · exact digit_not_space hy2
  have hstrip : pyStrip (dollarChars gs y1 y2) = dollarChars gs y1 y2 :=
    pyStrip_of_no_space _ hns
  have hstripdc : stripDollarComma (dollarChars gs y1 y2) =
      gs.flatten ++ '.' :: [y1, y2] := by
    unfold dollarChars stripDollarComma
    rw [List.filter_cons]
    rw [if_neg (by decide)]
    rw [List.filter_append]
    have h1 : List.filter (fun c => decide (c ≠ '$' ∧ c ≠ ',')) (joinWith [','] gs) =
        gs.flatten := stripDollarComma_join gs hdig
    have h2 : List.filter (fun c => decide (c ≠ '$' ∧ c ≠ ','))
        ('.' :: [y1, y2]) = '.' :: [y1, y2] := by
      rw [List.filter_eq_self]
      intro c hc
      simp only [List.mem_cons, List.mem_singleton, List.not_mem_nil, or_false] at hc
      rcases hc with rfl | rfl | rfl
      · decide
      · simpa using digit_not_dollar_comma hy1
      · simpa using digit_not_dollar_comma hy2
    rw [h1, h2]
  have hflat_ne : gs.flatten ≠ [] := by
    rcases gs with _ | ⟨g0, gsr⟩
    · exact absurd rfl hgs_ne
    have hg0 : g0 ≠ [] := hne_groups g0 (by simp)
    intro h
    rw [List.flatten_cons] at h
    exact hg0 (List.append_eq_nil.mp h).1
  obtain ⟨c0, restF, hflt⟩ := List.exists_cons_of_ne_nil hflat_ne
  have hfd : ∀ c ∈ gs.flatten, isDigitCh c = true := by
    intro c hc
    obtain ⟨g, hg, hcg⟩ := List.mem_flatten.mp hc
    exact hdig g hg c hcg
  have hpfl : parseFloatLit (gs.flatten ++ '.' :: [y1, y2]) =
      some (.num ((dval gs.flatten 0 : ℚ) +
        (dval [y1, y2] 0 : ℚ) / ((10 ^ 2 : ℕ) : ℚ))) := by
    rw [hflt]
    exact parseFloatLit_dollar c0 restF (by rw [← hflt]; exact hfd) y1 y2 hy1 hy2
  have hvq : (dval gs.flatten 0 : ℚ) +
      (dval [y1, y2] 0 : ℚ) / ((10 ^ 2 : ℕ) : ℚ) = (N : ℚ) / 100 := by
    rw [hN_def]
    unfold dollarCents
    push_cast
    field_simp
    ring
  rcases Nat.eq_zero_or_pos N with hN0 | hN1
  · have hv0 : (N : ℚ) / 100 = 0 := by rw [hN0]; norm_num
    have hmain : _parse_price ⟨dollarChars gs y1 y2⟩ = some (pyTrunc 0) := by
      unfold _parse_price
      rw [if_neg hne]
      simp only [hstrip, hstripdc, pyFloat, hpfl, Option.map_some', hvq, hv0,
        float64_zero, zero_mul]
    left
    rw [hmain, hN0]
    simp [pyTrunc]
  set eps : ℚ := ((2 : ℚ) ^ (53 : ℕ))⁻¹ with heps_def
  have heps_pos : (0 : ℚ) < eps := by rw [heps_def]; positivity
  have heps_small : eps < 1 / 2 := by rw [heps_def]; norm_num
  have hconst : (10 ^ 15 : ℚ) * (2 * eps + eps * eps) < 1 / 2 := by
    rw [heps_def]
    norm_num
  clear_value eps
  have hNQ1 : (1 : ℚ) ≤ (N : ℚ) := by exact_mod_cast hN1
  have hNQle : (N : ℚ) ≤ 10 ^ 15 := by exact_mod_cast hNle
  have hv_pos : (0 : ℚ) < (N : ℚ) / 100 := by positivity
  have hv_lb : (1 : ℚ) / 128 ≤ (N : ℚ) / 100 := by linarith
  have hv_ub : (N : ℚ) / 100 ≤ 10 ^ 13 := by linarith
  have hm7 : (2 : ℚ) ^ (-7 : ℤ) = 1 / 128 := by
    rw [zpow_neg]
    norm_num
  have hl1 : -1022 ≤ floorLog2Q ((N : ℚ) / 100) :=
    le_trans (by norm_num)
      (le_floorLog2Q _ hv_pos (-7) (by rw [hm7]; exact hv_lb))
  set x : ℚ := roundF64 ((N : ℚ) / 100) with hx_def
  have hx_err : |x - (N : ℚ) / 100| ≤ (N : ℚ) / 100 * eps := by
    rw [hx_def, heps_def]
    exact roundF64_err_rel _ hv_pos hl1
  have hNe_ub := mul_le_mul_of_nonneg_right hNQle heps_pos.le
  have hNe2_ub := mul_le_mul_of_nonneg_right hNQle
    (mul_nonneg heps_pos.le heps_pos.le)
  have hNe_lb := mul_le_mul_of_nonneg_right hNQ1 heps_pos.le
  have hx_lb : (N : ℚ) / 100 * (1 - eps) ≤ x := by
    have := (abs_le.mp hx_err).1
    linarith
  have hx_ub : x ≤ (N : ℚ) / 100 * (1 + eps) := by
    have := (abs_le.mp hx_err).2
    linarith
  have hx_pos : 0 < x := by nlinarith
  have h2_1024 : ((2 ^ 1024 : ℕ) : ℚ) = (2 : ℚ) ^ (1024 : ℕ) := by push_cast; ring
  have hbig : (2 * 10 ^ 15 : ℚ) < (2 : ℚ) ^ (1024 : ℕ) := by norm_num
  have hfin1 : float64 ((N : ℚ) / 100) = .fin x := by
    rw [hx_def]
    apply float64_fin
    rw [← hx_def, h2_1024, abs_of_pos hx_pos]
    nlinarith
  have hxe := mul_le_mul_of_nonneg_right hx_ub heps_pos.le
  have hl2 : -1022 ≤ floorLog2Q (x * 100) := by
    refine le_trans (by norm_num) (le_floorLog2Q _ (by positivity) (-7) ?_)
    rw [hm7]
    nlinarith
  set z : ℚ := roundF64 (x * 100) with hz_def
  have hz_err : |z - x * 100| ≤ x * 100 * eps := by
    rw [hz_def, heps_def]
    exact roundF64_err_rel _ (by positivity) hl2
  have hz_lb : x * 100 * (1 - eps) ≤ z := by
    have := (abs_le.mp hz_err).1
    nlinarith
  have hz_ub : z ≤ x * 100 * (1 + eps) := by
    have := (abs_le.mp hz_err).2
    nlinarith
  have hzN_ub : z < (N : ℚ) + 1 / 2 := by nlinarith [hxe, hNe_ub, hNe2_ub]
  have hzN_lb : (N : ℚ) - 1 / 2 < z := by nlinarith [hxe, hNe_ub, hNe2_ub]
  have hz_nonneg : (0 : ℚ) ≤ z := by linarith
  have hfin2 : float64 (x * 100) = .fin z := by
    rw [hz_def]
    apply float64_fin
    rw [← hz_def, h2_1024, abs_of_nonneg hz_nonneg]
    linarith
  have hmain : _parse_price ⟨dollarChars gs y1 y2⟩ = some (pyTrunc z) := by
    unfold _parse_price
    rw [if_neg hne]
    simp only [hstrip, hstripdc, pyFloat, hpfl, Option.map_some', hvq,
      hfin1, hfin2]
  have hptz : pyTrunc z = ⌊z⌋ := by
    unfold pyTrunc
    rw [if_pos hz_nonneg]
  have hfl_ub : ⌊z⌋ ≤ (N : ℤ) := by
    have : ⌊z⌋ < (N : ℤ) + 1 := by
      rw [Int.floor_lt]
      push_cast
      linarith
    omega
  have hfl_lb : (N : ℤ) - 1 ≤ ⌊z⌋ := by
    rw [Int.le_floor]
    push_cast
    linarith
  rw [hmain, hptz]
  rcases eq_or_lt_of_le hfl_ub with heq | hlt
  · left
    rw [heq]
  · right
    have h3 : ⌊z⌋ = (N : ℤ) - 1 := by omega
    rw [h3]

/-- C3 (counterexample): the spec says `parse_price` returns
`round(value * 100)`; for `"$0.29"` the rounded value is 29 cents, but the
code truncates the binary64 product `float("0.29") * 100` (which is just
below 29) and returns 28. -/
theorem c3_parse_price_counterexample :
    _parse_price "$0.29" = some 28 ∧ rhe ((29 : ℚ) / 100 * 100) = 29 :=
  ⟨by with_unfolding_all rfl, by with_unfolding_all decide⟩

/-- Witness for c3: the amended theorem at `"$1,234.56"` (exact amount
123456 cents; here the binary64 chain lands on the exact value). -/
theorem c3_parse_price_amended_witness :
    _parse_price "$1,234.56" = some 123456 ∨
      _parse_price "$1,234.56" = some 123455 := by
  have h := c3_parse_price_amended.2.2 [['1'], ['2', '3', '4']] '5' '6'
    (by decide) (by decide) (by decide) (by decide) (by decide) (by decide)
  have e1 : (⟨dollarChars [['1'], ['2', '3', '4']] '5' '6'⟩ : String) =
      "$1,234.56" := by with_unfolding_all rfl
  have e2 : ((dollarCents [['1'], ['2', '3', '4']] '5' '6' : ℕ) : ℤ) = 123456 := by
    with_unfolding_all rfl
  rw [e1, e2] at h
  simpa using h

/-- `lookup` distributes over append via `Option.or`. -/
theorem lookup_append_str (a : String) (l1 l2 : List (String × ℤ)) :
    List.lookup a (l1 ++ l2) = (List.lookup a l1).or (List.lookup a l2) := by
  induction l1 with
  | nil => simp [List.lookup]
  | cons p t ih =>
    rcases p with ⟨k, v⟩
    simp only [List.cons_append, List.lookup]
    split
    · rfl
    · exact ih

/-- `lookup` of a pick's own label: the last entry of the series. -/
theorem lookup_pick_self (label : String) (s : Option (List (ℤ × ℤ))) :
    List.lookup label (pick label s) = (s.bind List.getLast?).map Prod.snd := by
  cases s with
  | none => rfl
  | some xs =>
    cases h : xs.getLast? with
    | none => simp [pick, h]
    | some p => simp [pick, h, List.lookup]

/-- `lookup` of a different label finds nothing in a pick. -/
theorem lookup_pick_ne (a label : String) (h : a ≠ label)
    (s : Option (List (ℤ × ℤ))) : List.lookup a (pick label s) = none := by
  cases s with
  | none => rfl
  | some xs =>
    cases hx : xs.getLast? with
    | none => simp [pick, hx]
    | some p => simp [pick, hx, List.lookup, beq_eq_false_iff_ne.mpr h]

/-- C6: on a page with a well-formed chart block, the primary prices dict is
used whenever it is non-empty (the HTML fallback elements are ignored even
when present); the fallback is consulted exactly when the primary dict is
empty; and each condition's primary price is the second component of the
last entry of that condition's time series. -/
theorem c6_chart_data_preferred :
    (∀ (pc slug : String) (page : PCPage) (c : ChartSeries),
      page.chart = some c → chartPrices c ≠ [] →
      (get_pricecharting_prices pc slug (.ok page)).prices = chartPrices c) ∧
    (∀ (pc slug : String) (page : PCPage) (c : ChartSeries),
      page.chart = some c → chartPrices c = [] →
      (get_pricecharting_prices pc slug (.ok page)).prices =
        fallbackPrices page.usedEl page.completeEl page.newEl) ∧
    (∀ c : ChartSeries,
      List.lookup "loose" (chartPrices c) =
        (c.used.bind List.getLast?).map Prod.snd ∧
      List.lookup "cib" (chartPrices c) =
        (c.cib.bind List.getLast?).map Prod.snd ∧
      List.lookup "new" (chartPrices c) =
        (c.new.bind List.getLast?).map Prod.snd ∧
      List.lookup "graded" (chartPrices c) =
        (c.graded.bind List.getLast?).map Prod.snd ∧
      List.lookup "box_only" (chartPrices c) =
        (c.boxonly.bind List.getLast?).map Prod.snd ∧
      List.lookup "manual_only" (chartPrices c) =
        (c.manualonly.bind List.getLast?).map Prod.snd) := by
  refine ⟨?_, ?_, ?_⟩
  · intro pc slug page c hc hne
    simp only [get_pricecharting_prices, hc]
    rw [if_neg hne]
  · intro pc slug page c hc hemp
    simp only [get_pricecharting_prices, hc]
    rw [if_pos hemp]
  · intro c
    refine ⟨?_, ?_, ?_, ?_, ?_, ?_⟩
    · simp only [chartPrices, lookup_append_str, lookup_pick_self,
        lookup_pick_ne "loose" "cib" (by decide),
        lookup_pick_ne "loose" "new" (by decide),
        lookup_pick_ne "loose" "graded" (by decide),
        lookup_pick_ne "loose" "box_only" (by decide),
        lookup_pick_ne "loose" "manual_only" (by decide),
        Option.or_none]
    · simp only [chartPrices, lookup_append_str, lookup_pick_self,
        lookup_pick_ne "cib" "loose" (by decide),
        lookup_pick_ne "cib" "new" (by decide),
        lookup_pick_ne "cib" "graded" (by decide),
        lookup_pick_ne "cib" "box_only" (by decide),
        lookup_pick_ne "cib" "manual_only" (by decide),
        Option.or_none, Option.none_or]
    · simp only [chartPrices, lookup_append_str, lookup_pick_self,
        lookup_pick_ne "new" "loose" (by decide),
        lookup_pick_ne "new" "cib" (by decide),
        lookup_pick_ne "new" "graded" (by decide),
        lookup_pick_ne "new" "box_only" (by decide),
        lookup_pick_ne "new" "manual_only" (by decide),
        Option.or_none, Option.none_or]
    · simp only [chartPrices, lookup_append_str, lookup_pick_self,
        lookup_pick_ne "graded" "loose" (by decide),
        lookup_pick_ne "graded" "cib" (by decide),
        lookup_pick_ne "graded" "new" (by decide),
        lookup_pick_ne "graded" "box_only" (by decide),
        lookup_pick_ne "graded" "manual_only" (by decide),
        Option.or_none, Option.none_or]
    · simp only [chartPrices, lookup_append_str, lookup_pick_self,
        lookup_pick_ne "box_only" "loose" (by decide),
        lookup_pick_ne "box_only" "cib" (by decide),
        lookup_pick_ne "box_only" "new" (by decide),
        lookup_pick_ne "box_only" "graded" (by decide),
        lookup_pick_ne "box_only" "manual_only" (by decide),
        Option.or_none, Option.none_or]
    · simp only [chartPrices, lookup_append_str, lookup_pick_self,
        lookup_pick_ne "manual_only" "loose" (by decide),
        lookup_pick_ne "manual_only" "cib" (by decide),
        lookup_pick_ne "manual_only" "new" (by decide),
        lookup_pick_ne "manual_only" "graded" (by decide),
        lookup_pick_ne "manual_only" "box_only" (by decide),
        Option.or_none, Option.none_or]

/-- Witness for c6: on a page with both tiers present, the prices are the
last chart entries (4500/8900), not the HTML element's 3999. -/
theorem c6_chart_data_preferred_witness :
    (get_pricecharting_prices "n64" "zelda" (.ok wPage)).prices =
      [("loose", 4500), ("cib", 8900)] := by
  have h := c6_chart_data_preferred.1 "n64" "zelda" wPage wChart rfl (by decide)
  rw [h]
  decide

/-- C9: on a failed HTTP request `get_pricecharting_prices` returns a
snapshot (no exception escapes) with an empty prices mapping, the humanized
slug as title, the canonical URL and the error marker; and humanizing
replaces separators by spaces and title-cases. -/
theorem c9_fetch_error_snapshot :
    (∀ (pc slug e : String),
      get_pricecharting_prices pc slug (.error e) =
        { title := humanizeSlug slug
          url := pcUrl pc slug
          prices := []
          error := some e }) ∧
    humanizeSlug "zelda-ocarina-of-time" = "Zelda Ocarina Of Time" :=
  ⟨fun pc slug e => rfl, by decide⟩

/-- C10: a platform filter key outside the catalog resolves to no filter, so
the search behaves exactly as an unfiltered search (no row is skipped for
its platform). -/
theorem c10_unknown_filter_ignored (key : String)
    (hk : ∀ e ∈ CONSOLES, e.1 ≠ key) :
    ∀ resp : Except String (Option (List SearchRow)),
      search_pricecharting resp (some key) = search_pricecharting resp none := by
  have h : resolveFilter (some key) = none := by
    simp only [resolveFilter]
    split_ifs with h0
    · rfl
    · rw [List.find?_eq_none.mpr]
      · rfl
      · intro e he
        simp [hk e he]
  have h2 : resolveFilter none = none := rfl
  intro resp
  unfold search_pricecharting
  rw [h, h2]

/-- Witness for c10: a search carrying one NES row returns the same single
result under the unknown filter key `ps5` as with no filter. -/
theorem c10_unknown_filter_ignored_witness :
    (∀ e ∈ CONSOLES, e.1 ≠ "ps5") ∧
      search_pricecharting
          (.ok (some [⟨some ("/game/nes/super-mario-bros", "Super Mario Bros."),
            some "NES", ["$25.00"]⟩])) (some "ps5") =
        search_pricecharting
          (.ok (some [⟨some ("/game/nes/super-mario-bros", "Super Mario Bros."),
            some "NES", ["$25.00"]⟩])) none :=
  ⟨by decide, c10_unknown_filter_ignored "ps5" (by decide) _⟩

/-- `dictInsert` never empties a mapping. -/
theorem dictInsert_ne_nil (l : List (String × BLEntry)) (k : String)
    (v : BLEntry) : dictInsert l k v ≠ [] := by
  cases l with
  | nil => simp [dictInsert]
  | cons p t =>
    rcases p with ⟨k0, v0⟩
    simp only [dictInsert]
    split <;> simp

/-- Folding well-formed records over a mapping yields a non-empty mapping
as soon as the start or the record list is non-empty. -/
theorem insGood_foldl_ne_nil (decomp : Char → List Char) :
    ∀ (items : List BundledRec) (acc : List (String × BLEntry)),
      items.all isGoodRec = true → (acc ≠ [] ∨ items ≠ []) →
      items.foldl (insGood decomp) acc ≠ [] := by
  intro items
  induction items with
  | nil =>
    intro acc _ h
    simp only [List.foldl_nil]
    rcases h with h | h
    · exact h
    · exact absurd rfl h
  | cons r rest ih =>
    intro acc hall h
    cases r with
    | malformed => simp [isGoodRec] at hall
    | good n c =>
      rw [List.foldl_cons]
      refine ih (dictInsert acc (_normalise decomp n) ⟨n, c⟩) ?_
        (Or.inl (dictInsert_ne_nil _ _ _))
      simp only [List.all_cons, Bool.and_eq_true] at hall
      exact hall.2

/-- C8 (counterexample): the spec says the snapshot fallback is non-empty
whenever the bundled file contains at least one well-formed record; but one
malformed record empties the whole mapping (the comprehension's `KeyError`
is caught around the entire build), so a failed live fetch ends with an
empty result despite a well-formed record being present. -/
theorem c8_snapshot_counterexample :
    _fetch_dkoldies_buylist decompId (.error "connection reset")
        (.ok [.good "Super Mario Bros" 4500, .malformed]) = [] ∧
    BundledRec.good "Super Mario Bros" 4500 ∈
      [BundledRec.good "Super Mario Bros" 4500, .malformed] ∧
    isGoodRec (.good "Super Mario Bros" 4500) = true :=
  ⟨rfl, by decide, rfl⟩

/-- C8 (amended): acquisition is total (never raises): a live-fetch
exception, a bad status or a bot challenge, and an empty scrape all fall
back to the bundled snapshot; the snapshot load is empty on a file error,
non-empty when the file is non-empty and every record is well-formed, and
empty as soon as any record is malformed (one `KeyError` drops the whole
mapping); when both sources are unusable the result is empty. -/
theorem c8_fetch_fallback_amended :
    (∀ (decomp : Char → List Char) (e : String)
        (file : Except String (List BundledRec)),
      _fetch_dkoldies_buylist decomp (.error e) file =
        _load_buylist_from_json decomp file) ∧
    (∀ (decomp : Char → List Char) (r : LiveResp)
        (file : Except String (List BundledRec)),
      r.respOk = false ∨ r.challenged = true →
      _fetch_dkoldies_buylist decomp (.ok r) file =
        _load_buylist_from_json decomp file) ∧
    (∀ (decomp : Char → List Char) (r : LiveResp)
        (file : Except String (List BundledRec)),
      parseLiveRows decomp r.rows = [] →
      _fetch_dkoldies_buylist decomp (.ok r) file =
        _load_buylist_from_json decomp file) ∧
    (∀ (decomp : Char → List Char) (e : String),
      _load_buylist_from_json decomp (.error e) = []) ∧
    (∀ (decomp : Char → List Char) (items : List BundledRec),
      items ≠ [] → items.all isGoodRec = true →
      _load_buylist_from_json decomp (.ok items) ≠ []) ∧
    (∀ (decomp : Char → List Char) (items : List BundledRec)
        (r : BundledRec), r ∈ items → isGoodRec r = false →
      _load_buylist_from_json decomp (.ok items) = []) ∧
    (∀ (decomp : Char → List Char) (e e2 : String),
      _fetch_dkoldies_buylist decomp (.error e) (.error e2) = []) := by
  refine ⟨fun _ _ _ => rfl, ?_, ?_, fun _ _ => rfl, ?_, ?_, fun _ _ _ => rfl⟩
  · intro decomp r file h
    simp only [_fetch_dkoldies_buylist]
    rw [if_pos h]
  · intro decomp r file h
    simp only [_fetch_dkoldies_buylist, h]
    split_ifs <;> rfl
  · intro decomp items hne hall
    simp only [_load_buylist_from_json]
    rw [if_pos hall]
    exact insGood_foldl_ne_nil decomp items [] hall (Or.inr hne)
  · intro decomp items r hr hbad
    simp only [_load_buylist_from_json]
    rw [if_neg]
    intro hall
    rw [List.all_eq_true] at hall
    have hgood := hall r hr
    rw [hbad] at hgood
    simp at hgood

/-- Witness for c8: with the live fetch down and a bundled file holding one
well-formed record, acquisition returns the snapshot mapping and it is
non-empty. -/
theorem c8_fetch_fallback_amended_witness :
    _fetch_dkoldies_buylist decompId (.error "timeout")
        (.ok [.good "Super Mario Bros" 4500]) =
      _load_buylist_from_json decompId (.ok [.good "Super Mario Bros" 4500]) ∧
    _load_buylist_from_json decompId (.ok [.good "Super Mario Bros" 4500]) ≠ [] :=
  ⟨c8_fetch_fallback_amended.1 decompId "timeout" _,
   c8_fetch_fallback_amended.2.2.2.2.1 decompId [.good "Super Mario Bros" 4500]
     (by decide) (by decide)⟩
